import Mathlib

/-!
Verification of the audio-library-cleanup reconciliation engine.

This file gives a shallow embedding of the engine's core algorithms:

* the path normalizer (`normalizeForFuzzyMatching`, `hasAccents`),
* the duplicate resolver (`cleanupDuplicates`),
* the format resolver (`cleanupMp3Flac`),
* the directory fuzzy matcher and merger (`getAlbumContext`,
  `selectDirectoryToKeep`, `mergeEntries`, `cleanupDirectories`),
* the empty/case-duplicate reclaimer (`cleanupEmptyDirs`),
* the cooperative cancellation flag (`validateCIP`),
* the full pipeline in its task order (`runCleanupTasks`).

The filesystem is modelled as a finitely branching tree (`FSTree`) whose
directory entries are association lists keyed by entry name, mirroring the
real filesystem's unique-name-per-directory discipline.  Files carry a byte
size and an opaque content tag so that "which copy survived" is observable.
Paths are lists of path components (the real code manipulates separator
joined strings; the translation is component-wise, which is faithful because
components never contain the separator).

JavaScript runtime primitives used by the code (Unicode NFD normalization,
`toLowerCase`) are modelled by executable functions that agree with the
runtime on the character repertoire appearing in this development (ASCII
plus the precomposed letter used in the diacritic scenarios); every theorem
below treats these functions as opaque key functions, so no statement
depends on the modelling beyond that repertoire.
-/

set_option autoImplicit false

namespace AudioCleanup

/-! ## JavaScript string primitives -/

/-- Characters matched by the `\s` class of the JavaScript regexes used by
the code (space, tab, line and page separators). -/
def jsWhitespace (c : Char) : Bool :=
  c = ' ' || c = '\t' || c = '\n' || c = '\r' || c = '\x0b' || c = '\x0c'

/-- One step of Unicode NFD decomposition, modelling
`String.prototype.normalize("NFD")` on the character repertoire of this
development: the precomposed letter e-acute decomposes into `e` followed by
the combining acute accent; every other character used here is NFD-inert. -/
def nfdChar (c : Char) : List Char :=
  if c = 'é' then ['e', '́'] else [c]

/-- Model of `text.normalize("NFD")` (JavaScript runtime collaborator). -/
def jsNFD (s : String) : String :=
  String.mk (s.data.flatMap nfdChar)

/-- Model of `text.normalize("NFC")` (JavaScript runtime collaborator); the
strings handled by this development are already NFC-normal, on which NFC is
the identity. -/
def jsNFC (s : String) : String := s

/-- Model of `String.prototype.toLowerCase` (ASCII case mapping; all
non-ASCII characters in this development are already lowercase). -/
def jsToLower (s : String) : String :=
  String.mk (s.data.map Char.toLower)

/-- Test for a combining diacritical mark (U+0300–U+036F), the class of the
regex `/[̀-ͯ]/`. -/
def isCombiningMark (c : Char) : Bool :=
  0x300 ≤ c.toNat && c.toNat ≤ 0x36F

/-- Embedding of `hasAccents` (src/src/utils/file.ts): a combining mark is
present, or NFD and NFC disagree on length. -/
def hasAccents (text : String) : Bool :=
  text.data.any isCombiningMark || (jsNFD text).length ≠ (jsNFC text).length

/-- Collapse every maximal run of whitespace to a single space, the
substitution `/\s+/g → " "`; the flag records whether the previous
character belonged to a whitespace run already emitted as one space. -/
def collapseWsAux (prevWs : Bool) : List Char → List Char
  | [] => []
  | c :: cs =>
    if jsWhitespace c then
      if prevWs then collapseWsAux true cs else ' ' :: collapseWsAux true cs
    else c :: collapseWsAux false cs

/-- Collapse every maximal run of whitespace to a single space. -/
def collapseWs (l : List Char) : List Char := collapseWsAux false l

/-- Model of `String.prototype.trim`: strip leading and trailing
whitespace. -/
def jsTrim (s : String) : String :=
  String.mk (((s.data.dropWhile jsWhitespace).reverse.dropWhile jsWhitespace).reverse)

/-- Embedding of `normalizeForFuzzyMatching` (src/src/utils/file.ts):
lowercase, NFD-decompose, strip combining marks U+0300–U+036F, replace `&`
with `and`, collapse whitespace runs, trim. -/
def normalizeForFuzzyMatching (text : String) : String :=
  let step1 := (jsNFD (jsToLower text)).data
  let step2 := step1.filter (fun c => !isCombiningMark c)
  let step3 := step2.flatMap (fun c => if c = '&' then "and".data else [c])
  jsTrim (String.mk (collapseWs step3))

/-- Result of the replacement `name.replace(/\(\d+\)$/, "")` used by the
duplicate and format resolvers to strip a trailing `(N)` counter: if the
name ends in `)`, preceded by one or more digits, preceded by `(`, those
characters are removed; otherwise the name is unchanged. -/
def stripCounter (s : String) : String :=
  match s.data.reverse with
  | ')' :: rest =>
    let ds := rest.takeWhile Char.isDigit
    if ds ≠ [] then
      match rest.drop ds.length with
      | '(' :: pre => String.mk pre.reverse
      | _ => s
    else s
  | _ => s

/-- Result of matching `name` against `/(.+)\s+\((\d+)\)$/` (the keeper
rename check of the duplicate resolver): `some base` gives capture group 1.
Because `(.+)` is greedy, `\s+` consumes exactly one whitespace character
and everything before it (which must be nonempty) is the captured base. -/
def renameBase (s : String) : Option String :=
  match s.data.reverse with
  | ')' :: rest =>
    let ds := rest.takeWhile Char.isDigit
    if ds ≠ [] then
      match rest.drop ds.length with
      | '(' :: w :: pre =>
        if jsWhitespace w ∧ pre ≠ [] then some (String.mk pre.reverse) else none
      | _ => none
    else none
  | _ => none

/-- Model of `path.extname` on a basename: the substring from the last dot,
or the empty string when there is no dot or the only dot starts the name. -/
def extnameOf (n : String) : String :=
  let r := n.data.reverse
  let post := r.takeWhile (fun c => c ≠ '.')
  if post.length = r.length then ""
  else if post.length + 1 = r.length then ""
  else String.mk ('.' :: post.reverse)

/-- Model of `path.parse(p).name` on a basename: the basename without its
`extnameOf` extension. -/
def nameNoExt (n : String) : String :=
  String.mk (n.data.take (n.data.length - (extnameOf n).data.length))

/-- Lowercase every component of a path, modelling `p.toLowerCase()` on the
separator-joined path string. -/
def lowerPath (p : List String) : List String :=
  p.map jsToLower

/-- Length of the separator-joined path string below the scan root (the
constant root prefix shifts every length equally, so comparisons by this
quantity agree with the code's comparisons of absolute path lengths). -/
def pathStrLen (p : List String) : Nat :=
  (p.map String.length).sum + p.length

/-! ## Generic grouping and stable sorting

`Map`-based grouping in the code preserves both key insertion order and
per-key value order; `Array.prototype.sort` is a stable sort.  `groupByKey`
and `sortByDesc` reproduce those observable behaviours exactly. -/

/-- Append `a` to the bucket of key `k`, creating the bucket at the end when
absent — one `Map.get(...).push(...)` / `Map.set` step. -/
def addToGroup {α κ : Type} [DecidableEq κ] (k : κ) (a : α) :
    List (κ × List α) → List (κ × List α)
  | [] => [(k, [a])]
  | (k2, as) :: gs =>
    if k = k2 then (k2, as ++ [a]) :: gs else (k2, as) :: addToGroup k a gs

/-- Group a list by a key function, preserving first-occurrence key order
and per-bucket element order, as a JavaScript `Map` of arrays does. -/
def groupByKey {α κ : Type} [DecidableEq κ] (key : α → κ) (l : List α) :
    List (κ × List α) :=
  l.foldl (fun gs a => addToGroup (key a) a gs) []

/-- Insert `a` into a descending-sorted list after every element whose key
is at least `key a` — the insertion step of a stable descending sort. -/
def insertByDesc {α : Type} (key : α → Nat) (a : α) : List α → List α
  | [] => [a]
  | b :: bs =>
    if key b < key a then a :: b :: bs else b :: insertByDesc key a bs

/-- Stable sort, descending by `key`: the observable behaviour of
`arr.sort((a, b) => key(b) - key(a))` (stable since ES2019). -/
def sortByDesc {α : Type} (key : α → Nat) (l : List α) : List α :=
  l.foldl (fun acc a => insertByDesc key a acc) []

/-- `Math.max(...)` over the keys of a list (groups are nonempty wherever
the code takes this maximum). -/
def listMaxBy {α : Type} (key : α → Nat) (l : List α) : Nat :=
  l.foldr (fun a m => max (key a) m) 0

/-! ## The filesystem model -/

mutual

/-- A filesystem node: a file with a byte size and an opaque content tag, or
a directory with a modification time and named entries. -/
inductive FSTree : Type where
  | file (size : Nat) (content : Nat)
  | dir (mtime : Nat) (entries : EList)

/-- The entry list of a directory, in listing order.  Real directories
never repeat an entry name; lemmas that need that discipline take it as a
hypothesis. -/
inductive EList : Type where
  | nil
  | cons (name : String) (t : FSTree) (rest : EList)

end

/-- Entry lists of a directory. -/
abbrev Entries := EList

/-- Build an entry list from a list of named nodes (a notation helper for
concrete trees). -/
def EList.ofList : List (String × FSTree) → EList
  | [] => .nil
  | (n, t) :: r => .cons n t (EList.ofList r)

/-- The entry names of a directory, in listing order (`fs.readdirSync`). -/
def EList.names : EList → List String
  | .nil => []
  | .cons n _ rest => n :: EList.names rest

mutual

/-- Decidable equality on `FSTree` (structural). -/
def FSTree.decEq : (a b : FSTree) → Decidable (a = b)
  | .file s c, .file s2 c2 =>
    if h : s = s2 then
      if h2 : c = c2 then .isTrue (by rw [h, h2])
      else .isFalse (fun he => by cases he; exact h2 rfl)
    else .isFalse (fun he => by cases he; exact h rfl)
  | .dir m es, .dir m2 es2 =>
    if h : m = m2 then
      match EList.decEq es es2 with
      | .isTrue he => .isTrue (by rw [h, he])
      | .isFalse he => .isFalse (fun x => by cases x; exact he rfl)
    else .isFalse (fun he => by cases he; exact h rfl)
  | .file _ _, .dir _ _ => .isFalse (fun he => FSTree.noConfusion he)
  | .dir _ _, .file _ _ => .isFalse (fun he => FSTree.noConfusion he)

/-- Decidable equality on entry lists (structural). -/
def EList.decEq : (a b : EList) → Decidable (a = b)
  | .nil, .nil => .isTrue rfl
  | .cons n t r, .cons n2 t2 r2 =>
    if h : n = n2 then
      match FSTree.decEq t t2 with
      | .isTrue ht =>
        match EList.decEq r r2 with
        | .isTrue hr => .isTrue (by rw [h, ht, hr])
        | .isFalse hr => .isFalse (fun x => by cases x; exact hr rfl)
      | .isFalse ht => .isFalse (fun x => by cases x; exact ht rfl)
    else .isFalse (fun x => by cases x; exact h rfl)
  | .nil, .cons _ _ _ => .isFalse (fun he => EList.noConfusion he)
  | .cons _ _ _, .nil => .isFalse (fun he => EList.noConfusion he)

end

instance : DecidableEq FSTree := FSTree.decEq

instance : DecidableEq EList := EList.decEq

/-- First entry with the given name (`fs.existsSync` / entry lookup). -/
def findE (n : String) : Entries → Option FSTree
  | .nil => none
  | .cons m t es => if m = n then some t else findE n es

/-- Replace the entry with the given name, or append it when absent (the
effect of creating or overwriting `dir/n` on a real directory). -/
def setE (n : String) (t : FSTree) : Entries → Entries
  | .nil => .cons n t .nil
  | .cons m u es => if m = n then .cons n t es else .cons m u (setE n t es)

/-- Remove the entry with the given name (first occurrence). -/
def removeE (n : String) : Entries → Entries
  | .nil => .nil
  | .cons m u es => if m = n then es else .cons m u (removeE n es)

/-- Node at a path below a directory, or `none`. -/
def getNode : Entries → List String → Option FSTree
  | _, [] => none
  | es, [n] => findE n es
  | es, n :: p =>
    match findE n es with
    | some (.dir _ sub) => getNode sub p
    | _ => none

/-- Remove the node at a path; a missing path leaves the tree unchanged. -/
def removePath : Entries → List String → Entries
  | es, [] => es
  | es, [n] => removeE n es
  | es, n :: p =>
    match findE n es with
    | some (.dir m sub) => setE n (.dir m (removePath sub p)) es
    | _ => es

/-- Set the node at a path, creating missing intermediate directories (the
effect of `fs.mkdirSync(..., { recursive: true })` followed by writes). -/
def setNodePath : Entries → List String → FSTree → Entries
  | es, [], _ => es
  | es, [n], t => setE n t es
  | es, n :: p, t =>
    match findE n es with
    | some (.dir m sub) => setE n (.dir m (setNodePath sub p t)) es
    | _ => setE n (.dir 0 (setNodePath .nil p t)) es

/-- Rename an entry of the directory at `dirP` (`fs.renameSync` within one
directory); missing sources leave the tree unchanged. -/
def renameAt (es : Entries) (dirP : List String) (oldName newName : String) : Entries :=
  match dirP with
  | [] =>
    match findE oldName es with
    | some t => setE newName t (removeE oldName es)
    | none => es
  | n :: p =>
    match findE n es with
    | some (.dir m sub) => setE n (.dir m (renameAt sub p oldName newName)) es
    | _ => es

/-! ## The directory merge (`mergeDirectories`, src/unnamed/part_005) -/

/-- `stat.size` reported for a directory, a platform constant the code
compares against file sizes without checking the entry type (0 on the NTFS
volumes this tool targets). -/
def DIR_STAT_SIZE : Nat := 0

mutual

/-- Embedding of `mergeDirectories(sourcePath, targetPath)` at the level of
the two directories' entry lists, returning the target's new entries: each
source entry in listing order is merged into the target by `mergeOne`, and
the source is deleted afterwards by the caller (`mergeAt`). -/
def mergeEntries : Entries → Entries → Option Entries
  | .nil, tgt => some tgt
  | .cons n t rest, tgt =>
    match mergeOne n t tgt with
    | some tgt2 => mergeEntries rest tgt2
    | none => none

/-- Merge one source entry into the target's entries.  A subdirectory
merges recursively into the same-named target entry (created when missing,
preserving an existing target directory's mtime); a file replaces a smaller
same-named target file (strictly larger wins, so equal sizes keep the
target's copy) and is copied when the name is absent.  `none` models the
unhandled exceptions of the collision cases the code cannot survive:
unlinking a directory (source file larger than the target directory's stat
size) and copying into a path under a file (nonempty source directory
colliding with a target file).  A source file no larger than a same-named
target directory is silently skipped, and an empty source directory
colliding with a target file is silently removed, exactly as in the code. -/
def mergeOne (n : String) : FSTree → Entries → Option Entries
  | .file s c, tgt =>
    match findE n tgt with
    | none => some (setE n (.file s c) tgt)
    | some (.file ts _) =>
      if ts < s then some (setE n (.file s c) tgt) else some tgt
    | some (.dir _ _) =>
      if DIR_STAT_SIZE < s then none else some tgt
  | .dir _ sub, tgt =>
    match findE n tgt with
    | none =>
      match mergeEntries sub .nil with
      | some m => some (setE n (.dir 0 m) tgt)
      | none => none
    | some (.dir tm tsub) =>
      match mergeEntries sub tsub with
      | some m => some (setE n (.dir tm m) tgt)
      | none => none
    | some (.file _ _) =>
      match sub with
      | .nil => some tgt
      | .cons _ _ _ => none

end

mutual

/-- Display helper for concrete trees. -/
def FSTree.reprStr : FSTree → String
  | .file s c => "file " ++ toString s ++ " " ++ toString c
  | .dir m es => "dir " ++ toString m ++ " [" ++ EList.reprStr es ++ "]"

/-- Display helper for concrete entry lists. -/
def EList.reprStr : EList → String
  | .nil => ""
  | .cons n t rest => n ++ ": " ++ FSTree.reprStr t ++ "; " ++ EList.reprStr rest

end

instance : Repr FSTree := ⟨fun t _ => FSTree.reprStr t⟩

instance : Repr EList := ⟨fun es _ => EList.reprStr es⟩

/-! ## Destructive filesystem actions -/

/-- The destructive filesystem operations the engine performs.  A dry run
performs none of them; a live run performs them in order. -/
inductive Action : Type where
  | deleteFile (p : List String)
  | deleteDir (p : List String)
  | renameFile (dirP : List String) (oldName newName : String)
  | mergeDirs (src tgt : List String)
deriving DecidableEq, Repr

/-- Apply `mergeDirectories(src, tgt)` at the whole-tree level: merge the
source directory's entries into the target's (creating the target when
missing) and delete the source recursively.  A missing source, or a merge
the code would crash on, leaves the tree unchanged (the crash aborts the
pass; no case below relies on this fallback). -/
def mergeAt (es : Entries) (src tgt : List String) : Entries :=
  match getNode es src with
  | some (.dir _ sEs) =>
    let tEs := match getNode es tgt with | some (.dir _ t) => t | _ => .nil
    let tmt := match getNode es tgt with | some (.dir m _) => m | _ => 0
    match mergeEntries sEs tEs with
    | some merged => removePath (setNodePath es tgt (.dir tmt merged)) src
    | none => es
  | _ => es

/-- Effect of one destructive action on the tree. -/
def applyAct (es : Entries) : Action → Entries
  | .deleteFile p => removePath es p
  | .deleteDir p => removePath es p
  | .renameFile d o n => renameAt es d o n
  | .mergeDirs s t => mergeAt es s t

/-- A filesystem state together with the trace of destructive actions
performed on it so far. -/
structure FS : Type where
  tree : Entries
  acts : List Action
deriving DecidableEq, Repr

/-- Perform one destructive action: mutate the tree and record the action. -/
def perform (s : FS) (a : Action) : FS :=
  { tree := applyAct s.tree a, acts := s.acts ++ [a] }

/-- `s'` is reachable from `s` by performing some action trace. -/
def Evolves (s s' : FS) : Prop :=
  ∃ d, s'.acts = s.acts ++ d ∧ s'.tree = d.foldl applyAct s.tree

/-! ## Audio inventory (src/src/utils/audio.ts) -/

/-- The recognized audio extension set `AUDIO_EXTENSIONS`. -/
def AUDIO_EXTENSIONS : List String := [".mp3", ".flac", ".wav"]

/-- Embedding of `isAudioFile`: the lowercased extension is recognized. -/
def isAudioFile (filename : String) : Bool :=
  AUDIO_EXTENSIONS.contains (jsToLower (extnameOf filename))

/-- The one extension the engine treats as lossless (`.flac`; the glossary:
"this system treats one fixed extension as lossless and others as lossy"). -/
def isLosslessExt (e : String) : Bool := e = ".flac"

/-- A lossy extension: recognized audio that is not the lossless one. -/
def isLossyExt (e : String) : Bool :=
  AUDIO_EXTENSIONS.contains e && !isLosslessExt e

/-- Embedding of the `AudioFile` record: directory path (components below
the scan root), on-disk entry name, parsed name without extension, byte
size, content tag, lowercased extension. -/
structure AudioFile : Type where
  dir : List String
  entry : String
  name : String
  size : Nat
  content : Nat
  extension : String
deriving DecidableEq, Repr

/-- The record `getAudioFilesInDirectory` builds for one file entry. -/
def mkAudioFile (pre : List String) (n : String) (sz c : Nat) : AudioFile :=
  { dir := pre, entry := n, name := nameNoExt n, size := sz, content := c,
    extension := jsToLower (extnameOf n) }

mutual

/-- Embedding of the audio scan: `traverseDirectory` visits each entry in
listing order, recursing into a subdirectory immediately after visiting it,
and the callback records every non-directory entry with a recognized audio
extension. -/
def collectAudio (pre : List String) : Entries → List AudioFile
  | .nil => []
  | .cons n t rest => collectAudioNode pre n t ++ collectAudio pre rest

/-- The records contributed by one visited entry: a file entry contributes
its record when its extension is recognized; a directory contributes its
subtree's records. -/
def collectAudioNode (pre : List String) (n : String) : FSTree → List AudioFile
  | .file sz c => if isAudioFile n then [mkAudioFile pre n sz c] else []
  | .dir _ es => collectAudio (pre ++ [n]) es

end

/-! ## Cancellation (src/src/utils/cleanupState.ts)

The process-wide flag is set once by the interrupt handler; the embedding
takes its value as a constant `cancelled : Bool` fixed before the pass (the
spec's polling claim is settled for a flag already set when the pass
starts).  `validateCleanupInProgress` throws a distinguished interruption
error when the flag is cleared. -/

/-- The user-interruption condition (`USER_INTERRUPTION_MESSAGE`). -/
inductive Interrupted : Type where
  | user
deriving DecidableEq, Repr

/-- Embedding of `validateCleanupInProgress` for a constant flag value. -/
def validateCIP (cancelled : Bool) : Except Interrupted Unit :=
  if cancelled then .error .user else .ok ()

/-! ## Duplicate resolver (src/src/scripts/cleanupDuplicates.ts) -/

/-- The counters record the duplicate pass reports. -/
structure DupCounters : Type where
  duplicateFilesDeleted : Nat
  filesRenamed : Nat
deriving DecidableEq, Repr

/-- Grouping name of the duplicate pass:
`file.name.replace(/\(\d+\)$/, "").trim()`. -/
def dupKey (f : AudioFile) : String := jsTrim (stripCounter f.name)

/-- The deletion loop over the non-keepers of one duplicate group: poll the
flag, then delete (live) or only count (dry); both modes increment the
deletion counter. -/
def dupDeleteLoop (c dry : Bool) : List AudioFile → FS → Nat →
    Except Interrupted (FS × Nat)
  | [], s, k => .ok (s, k)
  | f :: fs, s, k =>
    match validateCIP c with
    | .error e => .error e
    | .ok _ =>
      if dry then dupDeleteLoop c dry fs s (k + 1)
      else dupDeleteLoop c dry fs (perform s (.deleteFile (f.dir ++ [f.entry]))) (k + 1)

/-- The keeper rename step, performed after the group's deletions, with no
poll of its own: when the keeper's name matches `/(.+)\s+\((\d+)\)$/` it is
renamed to the captured base plus its extension; a live rename consults the
success oracle and a failed rename is only logged (counter not
incremented). -/
def dupRename (dry : Bool) (renameOk : List String → String → String → Bool)
    (keep : AudioFile) (s : FS) : FS × Nat :=
  match renameBase keep.name with
  | none => (s, 0)
  | some base =>
    let newEntry := base ++ extnameOf keep.entry
    if dry then (s, 1)
    else if renameOk keep.dir keep.entry newEntry then
      (perform s (.renameFile keep.dir keep.entry newEntry), 1)
    else (s, 0)

/-- Process one (directory, base-name) group: for groups larger than one,
sort descending by size (stable), keep the head, delete the rest, then
rename the keeper if its name still carries a counter suffix. -/
def dupProcessGroup (c dry : Bool) (renameOk : List String → String → String → Bool)
    (g : List AudioFile) (s : FS) (cnt : DupCounters) :
    Except Interrupted (FS × DupCounters) :=
  if 1 < g.length then
    match sortByDesc (fun f => f.size) g with
    | [] => .ok (s, cnt)
    | keep :: dels =>
      match dupDeleteLoop c dry dels s 0 with
      | .error e => .error e
      | .ok (s1, d) =>
        let (s2, r) := dupRename dry renameOk keep s1
        .ok (s2, ⟨cnt.duplicateFilesDeleted + d, cnt.filesRenamed + r⟩)
  else .ok (s, cnt)

/-- Loop over the base-name groups of one directory, polling per
iteration. -/
def dupInnerLoop (c dry : Bool) (renameOk : List String → String → String → Bool) :
    List (String × List AudioFile) → FS → DupCounters →
    Except Interrupted (FS × DupCounters)
  | [], s, cnt => .ok (s, cnt)
  | (_, g) :: gs, s, cnt =>
    match validateCIP c with
    | .error e => .error e
    | .ok _ =>
      match dupProcessGroup c dry renameOk g s cnt with
      | .error e => .error e
      | .ok (s1, c1) => dupInnerLoop c dry renameOk gs s1 c1

/-- Loop over the directory groups, polling per iteration. -/
def dupOuterLoop (c dry : Bool) (renameOk : List String → String → String → Bool) :
    List (List String × List (String × List AudioFile)) → FS → DupCounters →
    Except Interrupted (FS × DupCounters)
  | [], s, cnt => .ok (s, cnt)
  | (_, m) :: ms, s, cnt =>
    match validateCIP c with
    | .error e => .error e
    | .ok _ =>
      match dupInnerLoop c dry renameOk m s cnt with
      | .error e => .error e
      | .ok (s1, c1) => dupOuterLoop c dry renameOk ms s1 c1

/-- The nested grouping of the duplicate pass: by parent directory, then by
counter-stripped trimmed base name, in insertion order. -/
def dupGroups (files : List AudioFile) :
    List (List String × List (String × List AudioFile)) :=
  (groupByKey (fun f => f.dir) files).map (fun p => (p.1, groupByKey dupKey p.2))

/-- Embedding of `cleanupDuplicates`: scan (whose counting polls the flag
first), group, process every group. -/
def cleanupDuplicates (c dry : Bool)
    (renameOk : List String → String → String → Bool) (root : Entries) :
    Except Interrupted (FS × DupCounters) :=
  match validateCIP c with
  | .error e => .error e
  | .ok _ =>
    let files := collectAudio [] root
    dupOuterLoop c dry renameOk (dupGroups files) ⟨root, []⟩ ⟨0, 0⟩

/-! ## Format resolver (`cleanupMp3Flac`, src/unnamed/part_003) -/

/-- Grouping name of the format pass:
`normalizeForFuzzyMatching(file.name.replace(/\(\d+\)$/, ""))`. -/
def flacKey (f : AudioFile) : String :=
  normalizeForFuzzyMatching (stripCounter f.name)

/-- Deletion loop over the MP3 files of one matched group, polling per
iteration; both modes increment the change counter. -/
def mp3DeleteLoop (c dry : Bool) : List AudioFile → FS → Nat →
    Except Interrupted (FS × Nat)
  | [], s, k => .ok (s, k)
  | f :: fs, s, k =>
    match validateCIP c with
    | .error e => .error e
    | .ok _ =>
      if dry then mp3DeleteLoop c dry fs s (k + 1)
      else mp3DeleteLoop c dry fs (perform s (.deleteFile (f.dir ++ [f.entry]))) (k + 1)

/-- Process one (directory, normalized-name) group: when a `.flac` record
exists and `.mp3` records exist, delete every `.mp3` record; no other
extension triggers or suffers deletion, and no sizes are compared. -/
def mp3ProcessGroup (c dry : Bool) (g : List AudioFile) (s : FS) (k : Nat) :
    Except Interrupted (FS × Nat) :=
  let hasFlac := g.any (fun f => f.extension = ".flac")
  let mp3s := g.filter (fun f => f.extension = ".mp3")
  if hasFlac ∧ 0 < mp3s.length then mp3DeleteLoop c dry mp3s s k
  else .ok (s, k)

/-- Loop over the base-name groups of one directory, polling per
iteration. -/
def mp3InnerLoop (c dry : Bool) : List (String × List AudioFile) → FS → Nat →
    Except Interrupted (FS × Nat)
  | [], s, k => .ok (s, k)
  | (_, g) :: gs, s, k =>
    match validateCIP c with
    | .error e => .error e
    | .ok _ =>
      match mp3ProcessGroup c dry g s k with
      | .error e => .error e
      | .ok (s1, k1) => mp3InnerLoop c dry gs s1 k1

/-- Loop over the directory groups, polling per iteration. -/
def mp3OuterLoop (c dry : Bool) :
    List (List String × List (String × List AudioFile)) → FS → Nat →
    Except Interrupted (FS × Nat)
  | [], s, k => .ok (s, k)
  | (_, m) :: ms, s, k =>
    match validateCIP c with
    | .error e => .error e
    | .ok _ =>
      match mp3InnerLoop c dry m s k with
      | .error e => .error e
      | .ok (s1, k1) => mp3OuterLoop c dry ms s1 k1

/-- The nested grouping of the format pass: by parent directory, then by
normalized counter-stripped base name. -/
def mp3Groups (files : List AudioFile) :
    List (List String × List (String × List AudioFile)) :=
  (groupByKey (fun f => f.dir) files).map (fun p => (p.1, groupByKey flacKey p.2))

/-- Embedding of `cleanupMp3Flac`: scan (polling), group, process every
group. -/
def cleanupMp3Flac (c dry : Bool) (root : Entries) :
    Except Interrupted (FS × Nat) :=
  match validateCIP c with
  | .error e => .error e
  | .ok _ =>
    let files := collectAudio [] root
    mp3OuterLoop c dry (mp3Groups files) ⟨root, []⟩ 0

/-! ## Directory fuzzy matcher and merger (src/unnamed/part_005) -/

/-- Embedding of the `DirectoryInfo` record built during the directory
scan; `path` is relative to the scan root. -/
structure DirectoryInfo : Type where
  path : List String
  name : String
  subfolderCount : Nat
  lastModified : Nat
  hasAccents : Bool
deriving DecidableEq, Repr, Inhabited

/-- The names of the immediate subdirectory entries, in listing order
(`readdirSync` filtered to directories). -/
def subdirNames : Entries → List String
  | .nil => []
  | .cons n (.dir _ _) rest => n :: subdirNames rest
  | .cons _ (.file _ _) rest => subdirNames rest

/-- Embedding of `getSubfolderCount`: the number of immediate subdirectory
entries. -/
def countSubdirs (es : Entries) : Nat :=
  (subdirNames es).length

mutual

/-- The directory scan of `cleanupDirectories`: `traverseDirectory` in
directory-counting mode pushes a `DirectoryInfo` for every directory in
listing order, recursing immediately. -/
def collectDirInfos (pre : List String) : Entries → List DirectoryInfo
  | .nil => []
  | .cons n t rest => collectDirInfosNode pre n t ++ collectDirInfos pre rest

/-- The records contributed by one visited entry: a directory contributes
its own record followed by its subtree's records. -/
def collectDirInfosNode (pre : List String) (n : String) : FSTree → List DirectoryInfo
  | .file _ _ => []
  | .dir mt es =>
    { path := pre ++ [n], name := n, subfolderCount := countSubdirs es,
      lastModified := mt, hasAccents := hasAccents n } :: collectDirInfos (pre ++ [n]) es

end

/-- Embedding of `getAlbumContext` on the path of a directory relative to
the scan root: at depth two or more the context is the full parent path
(every component but the last); at depth one it is the directory's own
single component; at depth zero it is empty. -/
def getAlbumContext (rel : List String) : List String :=
  if 2 ≤ rel.length then rel.dropLast
  else if rel.length = 1 then rel
  else []

/-- Embedding of `selectDirectoryToKeep`: prefer accented names (a single
accented candidate wins outright); among the remaining, keep those with the
maximal immediate subfolder count (a single survivor wins); otherwise sort
the survivors descending by modification time (stable) and take the
first. -/
def selectDirectoryToKeep (dirs : List DirectoryInfo) : DirectoryInfo :=
  let withAccents := dirs.filter (fun d => d.hasAccents)
  let dirs1 :=
    if 0 < withAccents.length then withAccents else dirs
  if withAccents.length = 1 then withAccents.headD default
  else
    let maxSub := listMaxBy (fun d => d.subfolderCount) dirs1
    let withMax := dirs1.filter (fun d => d.subfolderCount = maxSub)
    if withMax.length = 1 then withMax.headD default
    else (sortByDesc (fun d => d.lastModified) withMax).headD default

/-- The nested grouping of the fuzzy matcher: directories whose context is
empty are skipped; the rest group by context, then by normalized name. -/
def dirContextGroups (dirs : List DirectoryInfo) :
    List (List String × List (String × List DirectoryInfo)) :=
  let eligible := dirs.filter (fun d => getAlbumContext d.path ≠ [])
  (groupByKey (fun d => getAlbumContext d.path) eligible).map
    (fun p => (p.1, groupByKey (fun d => normalizeForFuzzyMatching d.name) p.2))

/-- Merge every non-keeper of a fuzzy group into the keeper: dry runs only
count; live runs merge-and-delete and count.  No cancellation poll occurs
anywhere in this component. -/
def dirMergeLoop (dry : Bool) (keep : DirectoryInfo) :
    List DirectoryInfo → FS → Nat → FS × Nat
  | [], s, k => (s, k)
  | d :: ds, s, k =>
    if d.path = keep.path then dirMergeLoop dry keep ds s k
    else if dry then dirMergeLoop dry keep ds s (k + 1)
    else dirMergeLoop dry keep ds (perform s (.mergeDirs d.path keep.path)) (k + 1)

/-- Loop over the normalized-name groups of one context; only groups with
more than one member are acted on. -/
def dirNameLoop (dry : Bool) : List (String × List DirectoryInfo) → FS → Nat → FS × Nat
  | [], s, k => (s, k)
  | (_, g) :: gs, s, k =>
    if 1 < g.length then
      let keep := selectDirectoryToKeep g
      let (s1, k1) := dirMergeLoop dry keep g s k
      dirNameLoop dry gs s1 k1
    else dirNameLoop dry gs s k

/-- Loop over the context groups. -/
def dirContextLoop (dry : Bool) :
    List (List String × List (String × List DirectoryInfo)) → FS → Nat → FS × Nat
  | [], s, k => (s, k)
  | (_, m) :: ms, s, k =>
    let (s1, k1) := dirNameLoop dry m s k
    dirContextLoop dry ms s1 k1

/-- Embedding of `cleanupDirectories`: scan directories, group by context
and normalized name, merge each fuzzy group into its selected keeper.  The
component never consults the cancellation flag (its loops contain no
`validateCleanupInProgress` call), so the flag parameter is unused. -/
def cleanupDirectories (_cancelled dry : Bool) (root : Entries) :
    Except Interrupted (FS × Nat) :=
  let dirs := collectDirInfos [] root
  let (s, k) := dirContextLoop dry (dirContextGroups dirs) ⟨root, []⟩ 0
  .ok (s, k)

/-! ## Empty/case-duplicate reclaimer (src/src/scripts/cleanupEmptyDirs.ts) -/

/-- The per-directory observations the classification loop makes through
the filesystem: emptiness, recursive audio presence, read errors, and
case-sensitivity issues (case-variant sibling or case-duplicate
subdirectory names).  The pipeline instantiates them from the tree;
theorems about the loop hold for arbitrary oracles. -/
structure ReclaimOracles : Type where
  isEmpty : List String → Bool
  hasAudio : List String → Bool
  readError : List String → Bool
  caseIssues : List String → Bool

/-- The buckets the classification loop accumulates. -/
structure RBuckets : Type where
  processedLower : List (List String)
  empties : List (List String)
  noAudio : List (List String)
  caseIss : List (List String)
  errs : List (List String)
  skipped : List (List String)
deriving DecidableEq, Repr

/-- All buckets start empty. -/
def RBuckets.init : RBuckets := ⟨[], [], [], [], [], []⟩

/-- One iteration of the classification loop over `dirsToCheck`: skip
already-processed case variants, paths with multiple case variants among
the scanned directories, and configured skip paths (the path itself or any
ancestor); otherwise mark processed and classify as truly empty, read
error, has audio (nothing to do), or no audio (recording a case issue when
present). -/
def classifyStep (O : ReclaimOracles) (skip : List (List String))
    (allLower : List (List String)) (st : RBuckets) (d : List String) : RBuckets :=
  let lp := lowerPath d
  if lp ∈ st.processedLower then st
  else if 1 < allLower.count lp then { st with skipped := st.skipped ++ [d] }
  else if skip.any (fun sp => sp.isPrefixOf lp) then { st with skipped := st.skipped ++ [d] }
  else
    let st2 := { st with processedLower := st.processedLower ++ [lp] }
    if O.isEmpty d then { st2 with empties := st2.empties ++ [d] }
    else if O.readError d then { st2 with errs := st2.errs ++ [d] }
    else if O.hasAudio d then st2
    else if O.caseIssues d then
      { st2 with caseIss := st2.caseIss ++ [d], noAudio := st2.noAudio ++ [d] }
    else { st2 with noAudio := st2.noAudio ++ [d] }

/-- The full classification: sort the scanned directories deepest first
(stable, by path string length descending) and fold the loop. -/
def classifyAll (O : ReclaimOracles) (skip : List (List String))
    (dirs : List (List String)) : RBuckets :=
  (sortByDesc pathStrLen dirs).foldl (classifyStep O skip (dirs.map lowerPath))
    RBuckets.init

/-- Deletion loop over the truly empty directories (live only). -/
def reclaimDeleteEmpties (dry : Bool) : List (List String) → FS → FS
  | [], s => s
  | d :: ds, s =>
    if dry then reclaimDeleteEmpties dry ds s
    else reclaimDeleteEmpties dry ds (perform s (.deleteDir d))

/-- Deletion loop over the no-audio directories: directories flagged with
case issues or read errors are reported but never deleted; the rest are
deleted recursively (live only). -/
def reclaimDeleteNoAudio (dry : Bool) (caseIss errs : List (List String)) :
    List (List String) → FS → FS
  | [], s => s
  | d :: ds, s =>
    if d ∈ caseIss ∨ d ∈ errs then reclaimDeleteNoAudio dry caseIss errs ds s
    else if dry then reclaimDeleteNoAudio dry caseIss errs ds s
    else reclaimDeleteNoAudio dry caseIss errs ds (perform s (.deleteDir d))

/-- The reclaimer over an abstract directory list and oracles: classify
everything, then delete empties, then delete unflagged no-audio
directories. -/
def cleanupEmptyDirsCore (dry : Bool) (O : ReclaimOracles)
    (skip : List (List String)) (dirs : List (List String)) (s0 : FS) :
    FS × RBuckets :=
  let b := classifyAll O skip dirs
  let s1 := reclaimDeleteEmpties dry b.empties s0
  let s2 := reclaimDeleteNoAudio dry b.caseIss b.errs b.noAudio s1
  (s2, b)

/-- Entries of the directory at a path (the scan root itself for `[]`). -/
def entriesAt (root : Entries) : List String → Option Entries
  | [] => some root
  | p =>
    match getNode root p with
    | some (.dir _ sub) => some sub
    | _ => none

/-- Tree-level `isDirectoryEmpty`: the path is a directory with zero
entries. -/
def treeIsEmptyDir (root : Entries) (p : List String) : Bool :=
  match getNode root p with
  | some (.dir _ .nil) => true
  | _ => false

mutual

/-- Recursive audio presence below an entry list (the error-free content of
`thoroughCheckDirectoryForAudio`: an audio file here or in any
subdirectory). -/
def entriesHaveAudio : Entries → Bool
  | .nil => false
  | .cons n t rest => nodeHasAudio n t || entriesHaveAudio rest

/-- Audio presence at one entry: a file entry with a recognized extension,
or any audio below a directory entry. -/
def nodeHasAudio (n : String) : FSTree → Bool
  | .file _ _ => isAudioFile n
  | .dir _ es => entriesHaveAudio es

end

/-- Tree-level recursive audio check for a directory path. -/
def treeHasAudio (root : Entries) (p : List String) : Bool :=
  match getNode root p with
  | some (.dir _ es) => entriesHaveAudio es
  | _ => false

/-- Case-insensitive duplicates among a name list (the
`lowerCaseDirs.length !== new Set(lowerCaseDirs).size` check). -/
def namesCaseDup (ns : List String) : Bool :=
  ((ns.map jsToLower).dedup).length ≠ (ns.map jsToLower).length

/-- Tree-level case-issue check for a directory: its immediate
subdirectory names collide case-insensitively, or a sibling entry's name
matches its own name case-insensitively but not exactly. -/
def treeCaseIssues (root : Entries) (p : List String) : Bool :=
  match getNode root p with
  | some (.dir _ es) =>
    let own := p.getLastD ""
    let sibs :=
      match entriesAt root p.dropLast with
      | some pes => (EList.names pes).any (fun m => jsToLower m = jsToLower own ∧ m ≠ own)
      | none => false
    namesCaseDup (subdirNames es) || sibs
  | _ => false

/-- The oracles the reclaimer observes on an error-free model filesystem. -/
def treeOracles (root : Entries) : ReclaimOracles :=
  { isEmpty := treeIsEmptyDir root
    hasAudio := treeHasAudio root
    readError := fun _ => false
    caseIssues := treeCaseIssues root }

mutual

/-- The directory scan of the reclaimer (preorder, like
`traverseDirectory`). -/
def collectDirPaths (pre : List String) : Entries → List (List String)
  | .nil => []
  | .cons n t rest => collectDirPathsNode pre n t ++ collectDirPaths pre rest

/-- The paths contributed by one visited entry. -/
def collectDirPathsNode (pre : List String) (n : String) : FSTree → List (List String)
  | .file _ _ => []
  | .dir _ es => (pre ++ [n]) :: collectDirPaths (pre ++ [n]) es

end

/-- Embedding of `cleanupEmptyDirs`: scan, classify with the tree oracles,
delete.  The component never consults the cancellation flag, so the flag
parameter is unused. -/
def cleanupEmptyDirs (_cancelled dry : Bool) (skip : List (List String))
    (root : Entries) : Except Interrupted (FS × RBuckets) :=
  .ok (cleanupEmptyDirsCore dry (treeOracles root) skip (collectDirPaths [] root)
    ⟨root, []⟩)

/-! ## The full pipeline (src/src/commands/cleanupAllCommand.ts) -/

/-- The counters of one full reconciliation run. -/
structure AllCounters : Type where
  dup : DupCounters
  mp3 : Nat
  dirs : Nat
deriving DecidableEq, Repr

/-- Embedding of `runCleanupTasks`: empty-directory cleanup, duplicate
cleanup, MP3/FLAC cleanup, then similar-directory cleanup, each pass
reading the tree the previous pass left; live renames succeed on the model
filesystem.  The combined action trace concatenates the passes' traces. -/
def runCleanupTasks (dry : Bool) (skip : List (List String)) (root : Entries) :
    Except Interrupted (FS × AllCounters) :=
  match cleanupEmptyDirs false dry skip root with
  | .error e => .error e
  | .ok (s1, _) =>
    match cleanupDuplicates false dry (fun _ _ _ => true) s1.tree with
    | .error e => .error e
    | .ok (s2, dc) =>
      match cleanupMp3Flac false dry s2.tree with
      | .error e => .error e
      | .ok (s3, mc) =>
        match cleanupDirectories false dry s3.tree with
        | .error e => .error e
        | .ok (s4, kc) =>
          .ok ({ tree := s4.tree, acts := s1.acts ++ s2.acts ++ s3.acts ++ s4.acts },
            ⟨dc, mc, kc⟩)

/-! ## Proof-support definitions -/

/-- Left-biased choice of the larger-keyed candidate: prefers the left
(earlier) one on ties. -/
def mergeOpt {α : Type} (key : α → Nat) : Option α → Option α → Option α
  | none, m => m
  | some b, none => some b
  | some b, some m => if key b < key m then some m else some b

/-- The first element of a list attaining the maximal key, if any. -/
def firstMaxBy {α : Type} (key : α → Nat) : List α → Option α
  | [] => none
  | a :: l => mergeOpt key (some a) (firstMaxBy key l)

/-- The delete action for an audio record. -/
def deleteActOf (f : AudioFile) : Action := .deleteFile (f.dir ++ [f.entry])

/-- The delete actions one duplicate group's non-keepers contribute (none
in dry mode). -/
def dupGroupDeleteActs (dry : Bool) (dels : List AudioFile) : List Action :=
  if dry then [] else dels.map deleteActOf

/-- The rename actions the keeper of one duplicate group contributes: one
live successful rename, otherwise none. -/
def dupGroupRenameActs (dry : Bool) (renameOk : List String → String → String → Bool)
    (keep : AudioFile) : List Action :=
  match renameBase keep.name with
  | none => []
  | some base =>
    if dry then []
    else if renameOk keep.dir keep.entry (base ++ extnameOf keep.entry) then
      [.renameFile keep.dir keep.entry (base ++ extnameOf keep.entry)]
    else []

/-- The `filesRenamed` contribution of one keeper: a dry run counts every
matched suffix; a live run counts only successful renames. -/
def renCount (dry : Bool) (renameOk : List String → String → String → Bool)
    (keep : AudioFile) : Nat :=
  match renameBase keep.name with
  | none => 0
  | some base =>
    if dry then 1
    else if renameOk keep.dir keep.entry (base ++ extnameOf keep.entry) then 1
    else 0

/-- The `duplicateFilesDeleted` contribution of one group. -/
def groupDelCount (g : List AudioFile) : Nat :=
  if 1 < g.length then g.length - 1 else 0

/-- The `filesRenamed` contribution of one group. -/
def groupRenCount (dry : Bool) (renameOk : List String → String → String → Bool)
    (g : List AudioFile) : Nat :=
  if 1 < g.length then
    match sortByDesc (fun f => f.size) g with
    | keep :: _ => renCount dry renameOk keep
    | [] => 0
  else 0

/-- Total `duplicateFilesDeleted` contribution of a directory's name
groups. -/
def innerDelCount (gs : List (String × List AudioFile)) : Nat :=
  (gs.map (fun p => groupDelCount p.2)).sum

/-- Total `filesRenamed` contribution of a directory's name groups. -/
def innerRenCount (dry : Bool) (renameOk : List String → String → String → Bool)
    (gs : List (String × List AudioFile)) : Nat :=
  (gs.map (fun p => groupRenCount dry renameOk p.2)).sum

/-- Total `duplicateFilesDeleted` contribution of all directory groups. -/
def outerDelCount (ms : List (List String × List (String × List AudioFile))) : Nat :=
  (ms.map (fun p => innerDelCount p.2)).sum

/-- Total `filesRenamed` contribution of all directory groups. -/
def outerRenCount (dry : Bool) (renameOk : List String → String → String → Bool)
    (ms : List (List String × List (String × List AudioFile))) : Nat :=
  (ms.map (fun p => innerRenCount dry renameOk p.2)).sum

/-- The `mp3FilesDeleted` contribution of one format group. -/
def groupMp3Count (g : List AudioFile) : Nat :=
  if g.any (fun f => f.extension = ".flac") ∧
      0 < (g.filter (fun f => f.extension = ".mp3")).length then
    (g.filter (fun f => f.extension = ".mp3")).length
  else 0

/-- Total `mp3FilesDeleted` contribution of a directory's name groups. -/
def innerMp3Count (gs : List (String × List AudioFile)) : Nat :=
  (gs.map (fun p => groupMp3Count p.2)).sum

/-- Total `mp3FilesDeleted` contribution of all directory groups. -/
def outerMp3Count (ms : List (List String × List (String × List AudioFile))) : Nat :=
  (ms.map (fun p => innerMp3Count p.2)).sum

/-- The `directoriesMergedOrProcessed` contribution of one fuzzy group. -/
def groupMergeCount (g : List DirectoryInfo) : Nat :=
  if 1 < g.length then
    (g.filter (fun d => d.path ≠ (selectDirectoryToKeep g).path)).length
  else 0

/-- Total merge-or-process contribution of a context's name groups. -/
def innerMergeCount (gs : List (String × List DirectoryInfo)) : Nat :=
  (gs.map (fun p => groupMergeCount p.2)).sum

/-- Total merge-or-process contribution of all context groups. -/
def outerMergeCount (ms : List (List String × List (String × List DirectoryInfo))) : Nat :=
  (ms.map (fun p => innerMergeCount p.2)).sum

/-- All actions one duplicate group contributes, deletions first, then the
keeper rename. -/
def dupGroupActs (dry : Bool) (renameOk : List String → String → String → Bool)
    (g : List AudioFile) : List Action :=
  if 1 < g.length then
    match sortByDesc (fun f => f.size) g with
    | keep :: dels => dupGroupDeleteActs dry dels ++ dupGroupRenameActs dry renameOk keep
    | [] => []
  else []

/-- All actions a directory's name groups contribute, in group order. -/
def dupInnerActs (dry : Bool) (renameOk : List String → String → String → Bool)
    (gs : List (String × List AudioFile)) : List Action :=
  (gs.map (fun p => dupGroupActs dry renameOk p.2)).flatten

/-- All actions the duplicate pass contributes, in directory order. -/
def dupOuterActs (dry : Bool) (renameOk : List String → String → String → Bool)
    (ms : List (List String × List (String × List AudioFile))) : List Action :=
  (ms.map (fun p => dupInnerActs dry renameOk p.2)).flatten

/-- All actions one format group contributes: a live deletion of every
`.mp3` record when a `.flac` record is present. -/
def mp3GroupActs (dry : Bool) (g : List AudioFile) : List Action :=
  if g.any (fun f => f.extension = ".flac") ∧
      0 < (g.filter (fun f => f.extension = ".mp3")).length then
    if dry then [] else (g.filter (fun f => f.extension = ".mp3")).map deleteActOf
  else []

/-- All actions a directory's format groups contribute. -/
def mp3InnerActs (dry : Bool) (gs : List (String × List AudioFile)) : List Action :=
  (gs.map (fun p => mp3GroupActs dry p.2)).flatten

/-- All actions the format pass contributes. -/
def mp3OuterActs (dry : Bool)
    (ms : List (List String × List (String × List AudioFile))) : List Action :=
  (ms.map (fun p => mp3InnerActs dry p.2)).flatten

/-- The merge actions one fuzzy group's non-keepers contribute towards a
given keeper (none in dry mode). -/
def dirMergeActs (dry : Bool) (keep : DirectoryInfo) (ds : List DirectoryInfo) :
    List Action :=
  if dry then []
  else (ds.filter (fun d => d.path ≠ keep.path)).map
    (fun d => .mergeDirs d.path keep.path)

/-- All actions one fuzzy group contributes: a live merge of every
non-keeper into the keeper. -/
def dirGroupActs (dry : Bool) (g : List DirectoryInfo) : List Action :=
  if 1 < g.length then dirMergeActs dry (selectDirectoryToKeep g) g else []

/-- All actions a context's fuzzy groups contribute. -/
def dirInnerActs (dry : Bool) (gs : List (String × List DirectoryInfo)) : List Action :=
  (gs.map (fun p => dirGroupActs dry p.2)).flatten

/-- All actions the fuzzy directory pass contributes. -/
def dirOuterActs (dry : Bool)
    (ms : List (List String × List (String × List DirectoryInfo))) : List Action :=
  (ms.map (fun p => dirInnerActs dry p.2)).flatten

/-- All actions the reclaimer's empty-directory loop contributes. -/
def emptiesActs (dry : Bool) (l : List (List String)) : List Action :=
  if dry then [] else l.map .deleteDir

/-- All actions the reclaimer's no-audio loop contributes: live recursive
deletions of the directories not flagged with case issues or read
errors. -/
def noAudioActs (dry : Bool) (caseIss errs : List (List String))
    (l : List (List String)) : List Action :=
  if dry then []
  else (l.filter (fun d => ¬ (d ∈ caseIss ∨ d ∈ errs))).map .deleteDir

/-- The spec's selection cascade (spec 4.6), as worded: successive filters
(diacritics, then the greatest immediate subfolder count, then the most
recent modification time), each narrowing the candidate set only if it does
not eliminate every candidate, with the first survivor in original group
order selected. -/
def specSelectDirectory (dirs : List DirectoryInfo) : DirectoryInfo :=
  let f1 := dirs.filter (fun d => d.hasAccents)
  let d1 := if f1.length = 0 then dirs else f1
  let f2 := d1.filter (fun d => d.subfolderCount = listMaxBy (fun d2 => d2.subfolderCount) d1)
  let d2 := if f2.length = 0 then d1 else f2
  let f3 := d2.filter (fun d => d.lastModified = listMaxBy (fun d2 => d2.lastModified) d2)
  let d3 := if f3.length = 0 then d2 else f3
  d3.headD default

/-! ## Concrete inputs used by counterexamples and witnesses -/

/-- A directory holding a counter-suffixed larger duplicate and its plain
smaller twin. -/
def c2root : Entries := EList.ofList [("M", .dir 1 (EList.ofList
  [("Song (2).mp3", .file 8 1), ("Song.mp3", .file 5 2)]))]

/-- The audio record of `Song (2).mp3` in `c2root`. -/
def c2a : AudioFile := mkAudioFile ["M"] "Song (2).mp3" 8 1

/-- The audio record of `Song.mp3` in `c2root`. -/
def c2b : AudioFile := mkAudioFile ["M"] "Song.mp3" 5 2

/-- A directory holding a same-named FLAC/WAV pair (the WAV larger). -/
def c3root : Entries := EList.ofList [("M", .dir 1 (EList.ofList
  [("A.flac", .file 10 1), ("A.wav", .file 20 2)]))]

/-- The audio record of `A.flac` in `c3root`. -/
def c3x : AudioFile := mkAudioFile ["M"] "A.flac" 10 1

/-- The audio record of `A.wav` in `c3root`. -/
def c3y : AudioFile := mkAudioFile ["M"] "A.wav" 20 2

/-- A directory holding a same-named FLAC/MP3 pair (the MP3 larger). -/
def c3wroot : Entries := EList.ofList [("M", .dir 1 (EList.ofList
  [("B.flac", .file 10 1), ("B.mp3", .file 20 2)]))]

/-- The audio record of `B.flac` in `c3wroot`. -/
def c3f : AudioFile := mkAudioFile ["M"] "B.flac" 10 1

/-- The audio record of `B.mp3` in `c3wroot`. -/
def c3m : AudioFile := mkAudioFile ["M"] "B.mp3" 20 2

/-- A root holding two sibling directories differing only in case, with
exactly one truly empty. -/
def c4root : Entries := EList.ofList
  [("Foo", .dir 1 (EList.ofList [("x.mp3", .file 1 1)])),
   ("foo", .dir 2 .nil)]

/-- A root holding one non-empty directory with no audio anywhere below
it. -/
def c5root : Entries := EList.ofList
  [("Junk", .dir 1 (EList.ofList [("notes.txt", .file 1 1)]))]

/-- A root-level directory holding a same-named subdirectory: the
root-level directory's own name becomes its context, so it fuzzy-groups
with its child. -/
def c6root : Entries := EList.ofList [("Cafe", .dir 1 (EList.ofList
  [("Cafe", .dir 2 (EList.ofList [("x.mp3", .file 1 1)]))]))]

/-- A depth-three directory record (context is the full two-segment parent
path). -/
def c6d1 : DirectoryInfo := ⟨["X", "Y", "Cafe"], "Cafe", 0, 3, false⟩

/-- Its accented sibling record. -/
def c6d2 : DirectoryInfo := ⟨["X", "Y", "Café"], "Café", 0, 5, true⟩

/-- The scanned records of the depth-three sibling pair. -/
def c6dirs : List DirectoryInfo := [c6d1, c6d2]

/-- An accented directory record with two subfolders. -/
def c7cafe : DirectoryInfo := ⟨["Artist", "Café"], "Café", 2, 1, true⟩

/-- Its unaccented rival with five subfolders and a later mtime. -/
def c7cafe2 : DirectoryInfo := ⟨["Artist", "Cafe"], "Cafe", 5, 9, false⟩

/-- The fuzzy group of the two rival records. -/
def c7dirs : List DirectoryInfo := [c7cafe, c7cafe2]

/-- A root whose fuzzy directory pass has one merge to perform. -/
def c9root : Entries := EList.ofList [("X", .dir 1 (EList.ofList
  [("Cafe", .dir 2 (EList.ofList [("a.mp3", .file 1 1)])),
   ("Café", .dir 3 (EList.ofList [("b.mp3", .file 1 2)]))]))]

/-- A root the full pipeline leaves untouched. -/
def w10root : Entries := EList.ofList
  [("A", .dir 1 (EList.ofList [("x.flac", .file 10 1)]))]


def ex10root : Entries := EList.ofList
  [("P", .dir 1 (EList.ofList [
     ("Café", .dir 2 (EList.ofList [("Sub", .dir 3 (EList.ofList [("a.flac", .file 100 1)]))])),
     ("Cafe", .dir 4 (EList.ofList [("SUB", .dir 5 (EList.ofList [("b.flac", .file 200 2)]))]))]))]

def secondRunActs (root : Entries) : Option (List Action) :=
  match runCleanupTasks false [] root with
  | .error _ => none
  | .ok (s1, _) =>
    match runCleanupTasks false [] s1.tree with
    | .error _ => none
    | .ok (s2, _) => some s2.acts

/-- A source directory holding one 5-byte audio file (content tag 1). -/
def c1src : Entries := EList.ofList [("a.mp3", .file 5 1)]

/-- A target directory holding a same-named equal-sized file (content tag
2) and another file. -/
def c1tgt : Entries := EList.ofList [("a.mp3", .file 5 2), ("b.mp3", .file 3 3)]

/-! ## Basic lemmas -/

theorem Evolves.refl (s : FS) : Evolves s s :=
  ⟨[], by simp⟩

theorem Evolves.trans {s1 s2 s3 : FS} (h1 : Evolves s1 s2) (h2 : Evolves s2 s3) :
    Evolves s1 s3 := by
  obtain ⟨d1, ha1, ht1⟩ := h1
  obtain ⟨d2, ha2, ht2⟩ := h2
  exact ⟨d1 ++ d2, by simp [ha2, ha1], by simp [ht2, ht1, List.foldl_append]⟩

theorem Evolves.perform (s : FS) (a : Action) : Evolves s (AudioCleanup.perform s a) :=
  ⟨[a], by simp [AudioCleanup.perform], by simp [AudioCleanup.perform]⟩

/-- An evolution that recorded no new actions left the tree unchanged. -/
theorem Evolves.tree_eq_of_acts_eq {s s' : FS} (h : Evolves s s')
    (ha : s'.acts = s.acts) : s'.tree = s.tree := by
  obtain ⟨d, ha2, ht⟩ := h
  have hd : d = [] := by
    have := ha2.symm.trans ha
    simpa using this
  simp [ht, hd]

theorem validateCIP_false : validateCIP false = .ok () := rfl

theorem validateCIP_true : validateCIP true = .error .user := rfl

/-! ## Stable sort lemmas -/

theorem mergeOpt_none_right {α : Type} (key : α → Nat) (x : Option α) :
    mergeOpt key x none = x := by
  cases x <;> rfl

theorem mergeOpt_assoc {α : Type} (key : α → Nat) (x y z : Option α) :
    mergeOpt key (mergeOpt key x y) z = mergeOpt key x (mergeOpt key y z) := by
  cases x with
  | none => rfl
  | some b =>
    cases y with
    | none => rfl
    | some m =>
      cases z with
      | none => rw [mergeOpt_none_right, mergeOpt_none_right]
      | some k =>
        by_cases h1 : key b < key m
        · by_cases h2 : key m < key k
          · have h3 : key b < key k := lt_trans h1 h2
            simp [mergeOpt, h1, h2, h3]
          · simp [mergeOpt, h1, h2]
        · by_cases h2 : key m < key k
          · by_cases h3 : key b < key k
            · simp [mergeOpt, h1, h2, h3]
            · simp [mergeOpt, h1, h2, h3]
          · have h3 : ¬ key b < key k := by omega
            simp [mergeOpt, h1, h2, h3]

theorem insertByDesc_head {α : Type} (key : α → Nat) (a : α) (l : List α) :
    (insertByDesc key a l).head? = mergeOpt key l.head? (some a) := by
  cases l with
  | nil => rfl
  | cons b bs =>
    simp only [insertByDesc]
    by_cases h : key b < key a
    · rw [if_pos h]; simp [mergeOpt, h]
    · rw [if_neg h]; simp [mergeOpt, h]

theorem foldl_insertByDesc_head {α : Type} (key : α → Nat) :
    ∀ (l acc : List α),
      (l.foldl (fun acc a => insertByDesc key a acc) acc).head? =
        mergeOpt key acc.head? (firstMaxBy key l)
  | [], acc => by simp [firstMaxBy, mergeOpt_none_right]
  | a :: l, acc => by
    simp only [List.foldl_cons]
    rw [foldl_insertByDesc_head key l (insertByDesc key a acc), insertByDesc_head,
      mergeOpt_assoc]
    rfl

/-- The head of the stable descending sort is the first element attaining
the maximal key. -/
theorem sortByDesc_head? {α : Type} (key : α → Nat) (l : List α) :
    (sortByDesc key l).head? = firstMaxBy key l := by
  unfold sortByDesc
  rw [foldl_insertByDesc_head]
  rfl

theorem listMaxBy_cons {α : Type} (key : α → Nat) (a : α) (l : List α) :
    listMaxBy key (a :: l) = max (key a) (listMaxBy key l) := rfl

theorem insertByDesc_perm {α : Type} (key : α → Nat) (a : α) (l : List α) :
    List.Perm (insertByDesc key a l) (a :: l) := by
  induction l with
  | nil => exact List.Perm.refl _
  | cons b bs ih =>
    simp only [insertByDesc]
    split
    · exact List.Perm.refl _
    · exact (ih.cons b).trans (List.Perm.swap a b bs)

theorem foldl_insertByDesc_perm {α : Type} (key : α → Nat) :
    ∀ (l acc : List α),
      List.Perm (l.foldl (fun acc a => insertByDesc key a acc) acc) (acc ++ l)
  | [], acc => by simp
  | a :: l, acc => by
    simp only [List.foldl_cons]
    refine (foldl_insertByDesc_perm key l (insertByDesc key a acc)).trans ?_
    refine ((insertByDesc_perm key a acc).append_right l).trans ?_
    exact List.perm_middle.symm

/-- The stable descending sort is a permutation of its input. -/
theorem sortByDesc_perm {α : Type} (key : α → Nat) (l : List α) :
    List.Perm (sortByDesc key l) l := by
  simpa using foldl_insertByDesc_perm key l []

theorem le_listMaxBy {α : Type} (key : α → Nat) :
    ∀ {l : List α} {a : α}, a ∈ l → key a ≤ listMaxBy key l := by
  intro l
  induction l with
  | nil => intro a h; cases h
  | cons b bs ih =>
    intro a h
    rw [listMaxBy_cons]
    rcases List.mem_cons.mp h with rfl | h2
    · exact le_max_left _ _
    · exact le_trans (ih h2) (le_max_right _ _)

theorem firstMaxBy_mem {α : Type} (key : α → Nat) :
    ∀ {l : List α} {b : α}, firstMaxBy key l = some b → b ∈ l := by
  intro l
  induction l with
  | nil => intro b h; cases h
  | cons a as ih =>
    intro b h
    simp only [firstMaxBy] at h
    cases hm : firstMaxBy key as with
    | none =>
      rw [hm] at h
      simp only [mergeOpt] at h
      cases h
      exact List.mem_cons_self _ _
    | some m =>
      rw [hm] at h
      simp only [mergeOpt] at h
      split at h
      · cases h
        exact List.mem_cons_of_mem _ (ih hm)
      · cases h
        exact List.mem_cons_self _ _

theorem firstMaxBy_eq_none {α : Type} (key : α → Nat) :
    ∀ {l : List α}, firstMaxBy key l = none → l = [] := by
  intro l h
  cases l with
  | nil => rfl
  | cons a as =>
    exfalso
    simp only [firstMaxBy] at h
    cases hm : firstMaxBy key as with
    | none =>
      rw [hm] at h
      simp [mergeOpt] at h
    | some m =>
      rw [hm] at h
      simp only [mergeOpt] at h
      split at h <;> simp at h

theorem firstMaxBy_key {α : Type} (key : α → Nat) :
    ∀ {l : List α} {b : α}, firstMaxBy key l = some b → key b = listMaxBy key l := by
  intro l
  induction l with
  | nil => intro b h; cases h
  | cons a as ih =>
    intro b h
    simp only [firstMaxBy] at h
    rw [listMaxBy_cons]
    cases hm : firstMaxBy key as with
    | none =>
      rw [hm] at h
      simp only [mergeOpt] at h
      cases h
      have has : as = [] := firstMaxBy_eq_none key hm
      subst has
      simp [listMaxBy]
    | some m =>
      rw [hm] at h
      simp only [mergeOpt] at h
      have hm2 := ih hm
      split at h
      · cases h
        next h1 => omega
      · cases h
        next h1 => omega

/-- The first max is the head of the filter by maximal key. -/
theorem filter_max_head {α : Type} (key : α → Nat) :
    ∀ l : List α,
      (l.filter (fun a => key a = listMaxBy key l)).head? = firstMaxBy key l := by
  intro l
  induction l with
  | nil => rfl
  | cons a as ih =>
    by_cases hle : listMaxBy key as ≤ key a
    · have hmax : listMaxBy key (a :: as) = key a := by
        rw [listMaxBy_cons]; omega
      rw [hmax]
      simp only [List.filter_cons]
      rw [if_pos (by simp)]
      simp only [List.head?, firstMaxBy]
      cases hm : firstMaxBy key as with
      | none => simp [mergeOpt]
      | some m =>
        have := firstMaxBy_key key hm
        simp only [mergeOpt]
        rw [if_neg (by omega)]
    · push_neg at hle
      have hmax : listMaxBy key (a :: as) = listMaxBy key as := by
        rw [listMaxBy_cons]; omega
      rw [hmax]
      simp only [List.filter_cons]
      rw [if_neg (by simp; omega)]
      rw [ih]
      simp only [firstMaxBy]
      cases hm : firstMaxBy key as with
      | none =>
        have := firstMaxBy_eq_none key hm
        subst this
        simp [listMaxBy] at hle
      | some m =>
        have := firstMaxBy_key key hm
        simp only [mergeOpt]
        rw [if_pos (by omega)]

/-! ## Grouping lemmas -/

theorem addToGroup_key_eq {α κ : Type} [DecidableEq κ] (key : α → κ) (x : α)
    (gs : List (κ × List α))
    (h : ∀ p ∈ gs, ∀ a ∈ p.2, key a = p.1) :
    ∀ p ∈ addToGroup (key x) x gs, ∀ a ∈ p.2, key a = p.1 := by
  induction gs with
  | nil =>
    intro p hp a ha
    simp only [addToGroup, List.mem_singleton] at hp
    subst hp
    simp only [List.mem_singleton] at ha
    subst ha
    rfl
  | cons q qs ih =>
    intro p hp a ha
    obtain ⟨k2, as⟩ := q
    by_cases hk : key x = k2
    · simp only [addToGroup, if_pos hk] at hp
      rcases List.mem_cons.mp hp with rfl | hmem
      · rcases List.mem_append.mp ha with h1 | h1
        · exact h (k2, as) (List.mem_cons_self _ _) a h1
        · simp only [List.mem_singleton] at h1
          subst h1
          exact hk
      · exact h _ (List.mem_cons_of_mem _ hmem) a ha
    · simp only [addToGroup, if_neg hk] at hp
      rcases List.mem_cons.mp hp with rfl | hmem
      · exact h _ (List.mem_cons_self _ _) a ha
      · exact ih (fun r hr => h r (List.mem_cons_of_mem _ hr)) _ hmem a ha

theorem addToGroup_sub {α κ : Type} [DecidableEq κ] (k : κ) (x : α)
    (gs : List (κ × List α)) (S : List α)
    (h : ∀ p ∈ gs, ∀ a ∈ p.2, a ∈ S) (hx : x ∈ S) :
    ∀ p ∈ addToGroup k x gs, ∀ a ∈ p.2, a ∈ S := by
  induction gs with
  | nil =>
    intro p hp a ha
    simp only [addToGroup, List.mem_singleton] at hp
    subst hp
    simp only [List.mem_singleton] at ha
    subst ha
    exact hx
  | cons q qs ih =>
    intro p hp a ha
    obtain ⟨k2, as⟩ := q
    by_cases hk : k = k2
    · simp only [addToGroup, if_pos hk] at hp
      rcases List.mem_cons.mp hp with rfl | hmem
      · rcases List.mem_append.mp ha with h1 | h1
        · exact h (k2, as) (List.mem_cons_self _ _) a h1
        · simp only [List.mem_singleton] at h1
          subst h1
          exact hx
      · exact h _ (List.mem_cons_of_mem _ hmem) a ha
    · simp only [addToGroup, if_neg hk] at hp
      rcases List.mem_cons.mp hp with rfl | hmem
      · exact h _ (List.mem_cons_self _ _) a ha
      · exact ih (fun r hr => h r (List.mem_cons_of_mem _ hr)) _ hmem a ha

theorem groupByKey_key_eq {α κ : Type} [DecidableEq κ] (key : α → κ) (l : List α) :
    ∀ p ∈ groupByKey key l, ∀ a ∈ p.2, key a = p.1 := by
  have gen : ∀ (l2 : List α) (gs : List (κ × List α)),
      (∀ p ∈ gs, ∀ a ∈ p.2, key a = p.1) →
      ∀ p ∈ l2.foldl (fun gs a => addToGroup (key a) a gs) gs, ∀ a ∈ p.2, key a = p.1 := by
    intro l2
    induction l2 with
    | nil => intro gs h; exact h
    | cons x xs ih =>
      intro gs h
      exact ih _ (addToGroup_key_eq key x gs h)
  exact gen l [] (by intro p hp; cases hp)

theorem groupByKey_mem_src {α κ : Type} [DecidableEq κ] (key : α → κ) (l : List α) :
    ∀ p ∈ groupByKey key l, ∀ a ∈ p.2, a ∈ l := by
  have gen : ∀ (l2 : List α) (gs : List (κ × List α)) (S : List α),
      (∀ p ∈ gs, ∀ a ∈ p.2, a ∈ S) → (∀ x ∈ l2, x ∈ S) →
      ∀ p ∈ l2.foldl (fun gs a => addToGroup (key a) a gs) gs, ∀ a ∈ p.2, a ∈ S := by
    intro l2
    induction l2 with
    | nil => intro gs S h _; exact h
    | cons x xs ih =>
      intro gs S h hsub
      exact ih _ S (addToGroup_sub (key x) x gs S h (hsub x (List.mem_cons_self _ _)))
        (fun y hy => hsub y (List.mem_cons_of_mem _ hy))
  exact gen l [] l (by intro p hp; cases hp) (fun x hx => hx)

/-! ## Entry lookup lemmas -/

theorem findE_setE_self (n : String) (t : FSTree) :
    ∀ es : Entries, findE n (setE n t es) = some t
  | .nil => by simp [setE, findE]
  | .cons m u r => by
    by_cases h : m = n
    · simp [setE, findE, h]
    · simp [setE, findE, h, findE_setE_self n t r]

theorem findE_setE_ne (n m : String) (t : FSTree) (h : m ≠ n) :
    ∀ es : Entries, findE n (setE m t es) = findE n es
  | .nil => by simp [setE, findE, h]
  | .cons m2 u r => by
    by_cases h2 : m2 = m
    · subst h2
      simp only [setE, if_pos rfl]
      simp [findE, h]
    · simp only [setE, if_neg h2, findE]
      by_cases h3 : m2 = n
      · simp [h3]
      · simp [h3, findE_setE_ne n m t h r]

/-! ## Merge lemmas (claim C1) -/

theorem findE_cons_self (n : String) (u : FSTree) (r : Entries) :
    findE n (.cons n u r) = some u := by
  simp [findE]

theorem findE_cons_ne (n m : String) (u : FSTree) (r : Entries) (h : m ≠ n) :
    findE n (.cons m u r) = findE n r := by
  simp [findE, h]

theorem mergeOne_file_none (m : String) (s c : Nat) (tgt : Entries)
    (h : findE m tgt = none) :
    mergeOne m (.file s c) tgt = some (setE m (.file s c) tgt) := by
  simp only [mergeOne]
  rw [h]

theorem mergeOne_file_file (m : String) (s c ts tc : Nat) (tgt : Entries)
    (h : findE m tgt = some (.file ts tc)) :
    mergeOne m (.file s c) tgt =
      if ts < s then some (setE m (.file s c) tgt) else some tgt := by
  simp only [mergeOne]
  rw [h]

theorem mergeOne_file_file_lt (m : String) (s c ts tc : Nat) (tgt : Entries)
    (h : findE m tgt = some (.file ts tc)) (hlt : ts < s) :
    mergeOne m (.file s c) tgt = some (setE m (.file s c) tgt) := by
  rw [mergeOne_file_file m s c ts tc tgt h, if_pos hlt]

theorem mergeOne_file_file_ge (m : String) (s c ts tc : Nat) (tgt : Entries)
    (h : findE m tgt = some (.file ts tc)) (hlt : ¬ ts < s) :
    mergeOne m (.file s c) tgt = some tgt := by
  rw [mergeOne_file_file m s c ts tc tgt h, if_neg hlt]

theorem mergeOne_file_dir (m : String) (s c dm : Nat) (ds : Entries) (tgt : Entries)
    (h : findE m tgt = some (.dir dm ds)) :
    mergeOne m (.file s c) tgt =
      if DIR_STAT_SIZE < s then none else some tgt := by
  simp only [mergeOne]
  rw [h]

theorem mergeOne_dir_none_some (m : String) (mt : Nat) (sub mm : Entries)
    (tgt : Entries) (h : findE m tgt = none) (hm : mergeEntries sub .nil = some mm) :
    mergeOne m (.dir mt sub) tgt = some (setE m (.dir 0 mm) tgt) := by
  simp only [mergeOne]
  rw [h]
  show (match mergeEntries sub .nil with
        | some mm => some (setE m (.dir 0 mm) tgt)
        | none => none) = _
  rw [hm]

theorem mergeOne_dir_none_none (m : String) (mt : Nat) (sub : Entries)
    (tgt : Entries) (h : findE m tgt = none) (hm : mergeEntries sub .nil = none) :
    mergeOne m (.dir mt sub) tgt = none := by
  simp only [mergeOne]
  rw [h]
  show (match mergeEntries sub .nil with
        | some mm => some (setE m (.dir 0 mm) tgt)
        | none => none) = _
  rw [hm]

theorem mergeOne_dir_dir_some (m : String) (mt tm : Nat) (sub tsub mm : Entries)
    (tgt : Entries) (h : findE m tgt = some (.dir tm tsub))
    (hm : mergeEntries sub tsub = some mm) :
    mergeOne m (.dir mt sub) tgt = some (setE m (.dir tm mm) tgt) := by
  simp only [mergeOne]
  rw [h]
  show (match mergeEntries sub tsub with
        | some mm => some (setE m (.dir tm mm) tgt)
        | none => none) = _
  rw [hm]

theorem mergeOne_dir_dir_none (m : String) (mt tm : Nat) (sub tsub : Entries)
    (tgt : Entries) (h : findE m tgt = some (.dir tm tsub))
    (hm : mergeEntries sub tsub = none) :
    mergeOne m (.dir mt sub) tgt = none := by
  simp only [mergeOne]
  rw [h]
  show (match mergeEntries sub tsub with
        | some mm => some (setE m (.dir tm mm) tgt)
        | none => none) = _
  rw [hm]

theorem mergeOne_dir_file_nil (m : String) (mt fs fc : Nat) (tgt : Entries)
    (h : findE m tgt = some (.file fs fc)) :
    mergeOne m (.dir mt .nil) tgt = some tgt := by
  simp only [mergeOne]
  rw [h]

theorem mergeOne_dir_file_cons (m : String) (mt fs fc : Nat) (n2 : String)
    (t2 : FSTree) (r2 : Entries) (tgt : Entries)
    (h : findE m tgt = some (.file fs fc)) :
    mergeOne m (.dir mt (.cons n2 t2 r2)) tgt = none := by
  simp only [mergeOne]
  rw [h]

theorem mergeEntries_cons_some (m : String) (u : FSTree) (rest tgt tgt2 : Entries)
    (h : mergeOne m u tgt = some tgt2) :
    mergeEntries (.cons m u rest) tgt = mergeEntries rest tgt2 := by
  simp only [mergeEntries]
  rw [h]

theorem mergeEntries_cons_none (m : String) (u : FSTree) (rest tgt : Entries)
    (h : mergeOne m u tgt = none) :
    mergeEntries (.cons m u rest) tgt = none := by
  simp only [mergeEntries]
  rw [h]

/-- Merging one entry of a different name leaves a lookup unchanged. -/
theorem mergeOne_ne (m : String) (u : FSTree) (tgt out : Entries) (n : String)
    (hmn : m ≠ n) (h : mergeOne m u tgt = some out) :
    findE n out = findE n tgt := by
  cases u with
  | file s c2 =>
    cases hfm : findE m tgt with
    | none =>
      rw [mergeOne_file_none m s c2 tgt hfm] at h
      cases h
      exact findE_setE_ne n m _ hmn tgt
    | some w =>
      cases w with
      | file ts tc =>
        by_cases hlt : ts < s
        · rw [mergeOne_file_file_lt m s c2 ts tc tgt hfm hlt] at h
          cases h
          exact findE_setE_ne n m _ hmn tgt
        · rw [mergeOne_file_file_ge m s c2 ts tc tgt hfm hlt] at h
          cases h
          rfl
      | dir dm ds =>
        rw [mergeOne_file_dir m s c2 dm ds tgt hfm] at h
        by_cases hlt : DIR_STAT_SIZE < s
        · rw [if_pos hlt] at h
          cases h
        · rw [if_neg hlt] at h
          cases h
          rfl
  | dir mt sub =>
    cases hfm : findE m tgt with
    | none =>
      cases hms : mergeEntries sub .nil with
      | none =>
        rw [mergeOne_dir_none_none m mt sub tgt hfm hms] at h
        cases h
      | some mm =>
        rw [mergeOne_dir_none_some m mt sub mm tgt hfm hms] at h
        cases h
        exact findE_setE_ne n m _ hmn tgt
    | some w =>
      cases w with
      | file fs fc =>
        cases sub with
        | nil =>
          rw [mergeOne_dir_file_nil m mt fs fc tgt hfm] at h
          cases h
          rfl
        | cons a b r =>
          rw [mergeOne_dir_file_cons m mt fs fc a b r tgt hfm] at h
          cases h
      | dir tm tsub =>
        cases hms : mergeEntries sub tsub with
        | none =>
          rw [mergeOne_dir_dir_none m mt tm sub tsub tgt hfm hms] at h
          cases h
        | some mm =>
          rw [mergeOne_dir_dir_some m mt tm sub tsub mm tgt hfm hms] at h
          cases h
          exact findE_setE_ne n m _ hmn tgt

/-- Merging one source entry never shrinks a target file: the same-named
target file survives with a strictly larger size (when replaced) or exactly
its old size and content (when kept). -/
theorem mergeOne_mono (m : String) (u : FSTree) (tgt out : Entries)
    (n : String) (t c : Nat)
    (h : mergeOne m u tgt = some out) (hf : findE n tgt = some (.file t c)) :
    ∃ t2 c2, findE n out = some (.file t2 c2) ∧ (t < t2 ∨ (t2 = t ∧ c2 = c)) := by
  by_cases hmn : m = n
  · subst hmn
    cases u with
    | file s c2 =>
      by_cases hlt : t < s
      · rw [mergeOne_file_file_lt m s c2 t c tgt hf hlt] at h
        cases h
        exact ⟨s, c2, findE_setE_self m _ tgt, Or.inl hlt⟩
      · rw [mergeOne_file_file_ge m s c2 t c tgt hf hlt] at h
        cases h
        exact ⟨t, c, hf, Or.inr ⟨rfl, rfl⟩⟩
    | dir mt sub =>
      cases sub with
      | nil =>
        rw [mergeOne_dir_file_nil m mt t c tgt hf] at h
        cases h
        exact ⟨t, c, hf, Or.inr ⟨rfl, rfl⟩⟩
      | cons a b r =>
        rw [mergeOne_dir_file_cons m mt t c a b r tgt hf] at h
        cases h
  · suffices hsame : findE n out = findE n tgt by
      exact ⟨t, c, by rw [hsame, hf], Or.inr ⟨rfl, rfl⟩⟩
    exact mergeOne_ne m u tgt out n hmn h

/-- Merging never shrinks a target file (whole source). -/
theorem mergeEntries_mono : ∀ (src tgt out : Entries) (n : String) (t c : Nat),
    mergeEntries src tgt = some out → findE n tgt = some (.file t c) →
    ∃ t2 c2, findE n out = some (.file t2 c2) ∧ (t < t2 ∨ (t2 = t ∧ c2 = c))
  | .nil, tgt, out, n, t, c, h, hf => by
    simp only [mergeEntries] at h
    cases h
    exact ⟨t, c, hf, Or.inr ⟨rfl, rfl⟩⟩
  | .cons m u rest, tgt, out, n, t, c, h, hf => by
    cases h1 : mergeOne m u tgt with
    | none => rw [mergeEntries_cons_none m u rest tgt h1] at h; cases h
    | some tgt2 =>
      rw [mergeEntries_cons_some m u rest tgt tgt2 h1] at h
      obtain ⟨t2, c2, hf2, hrel⟩ := mergeOne_mono m u tgt tgt2 n t c h1 hf
      obtain ⟨t3, c3, hf3, hrel2⟩ := mergeEntries_mono rest tgt2 out n t2 c2 h hf2
      refine ⟨t3, c3, hf3, ?_⟩
      rcases hrel with h4 | ⟨h4, h5⟩ <;> rcases hrel2 with h6 | ⟨h6, h7⟩
      · left; omega
      · left; omega
      · left; omega
      · right; exact ⟨by omega, by rw [h7, h5]⟩

/-- Merging a source that holds no entry of a name leaves that name's
lookup unchanged. -/
theorem mergeEntries_not_mem : ∀ (src tgt out : Entries) (n : String),
    n ∉ EList.names src → mergeEntries src tgt = some out →
    findE n out = findE n tgt
  | .nil, tgt, out, n, _, h => by
    simp only [mergeEntries] at h
    cases h
    rfl
  | .cons m u rest, tgt, out, n, hmem, h => by
    cases h1 : mergeOne m u tgt with
    | none => rw [mergeEntries_cons_none m u rest tgt h1] at h; cases h
    | some tgt2 =>
      rw [mergeEntries_cons_some m u rest tgt tgt2 h1] at h
      have hmn : m ≠ n := by
        intro he
        subst he
        exact hmem (List.mem_cons_self _ _)
      have hrest : n ∉ EList.names rest := by
        intro he
        exact hmem (List.mem_cons_of_mem _ he)
      rw [mergeEntries_not_mem rest tgt2 out n hrest h]
      exact mergeOne_ne m u tgt tgt2 n hmn h1

/-- A source file survives `mergeOne` into a target that does not hold a
directory of its name, at a size at least its own. -/
theorem mergeOne_src_file (m : String) (s c : Nat) (tgt out : Entries)
    (h : mergeOne m (.file s c) tgt = some out)
    (hnd : ∀ mt sub, findE m tgt ≠ some (.dir mt sub)) :
    ∃ s2 c2, findE m out = some (.file s2 c2) ∧ s ≤ s2 := by
  cases hfm : findE m tgt with
  | none =>
    rw [mergeOne_file_none m s c tgt hfm] at h
    cases h
    exact ⟨s, c, findE_setE_self m _ tgt, le_refl s⟩
  | some w =>
    cases w with
    | file ts tc =>
      by_cases hlt : ts < s
      · rw [mergeOne_file_file_lt m s c ts tc tgt hfm hlt] at h
        cases h
        exact ⟨s, c, findE_setE_self m _ tgt, le_refl s⟩
      · rw [mergeOne_file_file_ge m s c ts tc tgt hfm hlt] at h
        cases h
        exact ⟨ts, tc, hfm, by omega⟩
    | dir dm ds => exact absurd hfm (hnd dm ds)

/-- A source file whose name is not held by a directory in the target
survives the whole merge with at least its size. -/
theorem mergeEntries_src : ∀ (src tgt out : Entries) (n : String) (s c : Nat),
    mergeEntries src tgt = some out → findE n src = some (.file s c) →
    (∀ mt sub, findE n tgt ≠ some (.dir mt sub)) →
    ∃ s2 c2, findE n out = some (.file s2 c2) ∧ s ≤ s2
  | .nil, tgt, out, n, s, c, _, hs, _ => by
    exact Option.noConfusion hs
  | .cons m u rest, tgt, out, n, s, c, h, hs, hnd => by
    cases h1 : mergeOne m u tgt with
    | none => rw [mergeEntries_cons_none m u rest tgt h1] at h; cases h
    | some tgt2 =>
      rw [mergeEntries_cons_some m u rest tgt tgt2 h1] at h
      by_cases hmn : m = n
      · subst hmn
        rw [findE_cons_self] at hs
        cases hs
        obtain ⟨s2, c2, hf2, hle⟩ := mergeOne_src_file m s c tgt tgt2 h1 hnd
        obtain ⟨s3, c3, hf3, hrel⟩ := mergeEntries_mono rest tgt2 out m s2 c2 h hf2
        refine ⟨s3, c3, hf3, ?_⟩
        rcases hrel with h4 | ⟨h4, _⟩ <;> omega
      · rw [findE_cons_ne n m u rest hmn] at hs
        refine mergeEntries_src rest tgt2 out n s c h hs ?_
        intro mt sub he
        rw [mergeOne_ne m u tgt tgt2 n hmn h1] at he
        exact hnd mt sub he

/-- On a size tie the target's copy is retained: when the source's sole
entry of a name is a file of exactly the target file's size, the merge
keeps the target's content. -/
theorem mergeEntries_tie : ∀ (src tgt out : Entries) (n : String) (s c c2 : Nat),
    mergeEntries src tgt = some out → (EList.names src).Nodup →
    findE n src = some (.file s c) → findE n tgt = some (.file s c2) →
    findE n out = some (.file s c2)
  | .nil, tgt, out, n, s, c, c2, _, _, hs, _ => by
    exact Option.noConfusion hs
  | .cons m u rest, tgt, out, n, s, c, c2, h, hnd, hs, ht => by
    cases h1 : mergeOne m u tgt with
    | none => rw [mergeEntries_cons_none m u rest tgt h1] at h; cases h
    | some tgt2 =>
      rw [mergeEntries_cons_some m u rest tgt tgt2 h1] at h
      by_cases hmn : m = n
      · subst hmn
        rw [findE_cons_self] at hs
        cases hs
        have htgt2 : tgt2 = tgt := by
          rw [mergeOne_file_file_ge m s c s c2 tgt ht (by omega)] at h1
          cases h1
          rfl
        rw [htgt2] at h
        have hrest : m ∉ EList.names rest := by
          simp only [EList.names, List.nodup_cons] at hnd
          exact hnd.1
        rw [mergeEntries_not_mem rest tgt out m hrest h]
        exact ht
      · rw [findE_cons_ne n m u rest hmn] at hs
        have htgt2 : findE n tgt2 = findE n tgt := mergeOne_ne m u tgt tgt2 n hmn h1
        have hnd2 : (EList.names rest).Nodup := by
          simp only [EList.names, List.nodup_cons] at hnd
          exact hnd.2
        exact mergeEntries_tie rest tgt2 out n s c c2 h hnd2 hs (by rw [htgt2]; exact ht)

/-! ## Claim C1 — merge content preservation (corrected) -/

/-- C1 counterexample: `mergeDirectories` compares sizes without checking
the target entry's type.  Merging a source holding the 0-byte file `X` into
a target holding a directory `X` completes successfully, yet no file named
`X` exists in the output (the source file is silently dropped), refuting
the claim that every file present in either input survives by name with at
least its size. -/
theorem merge_content_loss_counterexample :
    mergeEntries (.cons "X" (.file 0 7) .nil) (.cons "X" (.dir 5 .nil) .nil) =
      some (.cons "X" (.dir 5 .nil) .nil) ∧
    findE "X" (EList.cons "X" (FSTree.file 0 7) EList.nil) = some (.file 0 7) ∧
    (∀ s2 c2, findE "X" (EList.cons "X" (FSTree.dir 5 EList.nil) EList.nil) ≠
      some (.file s2 c2)) := by
  refine ⟨by decide, by decide, ?_⟩
  intro s2 c2 h
  rw [findE_cons_self] at h
  simp at h

/-- C1 (amended): for every merge of a source directory into a target
directory that completes, (i) every file of the target survives by name
with at least its byte size; (ii) every file of the source whose name is
not held by a directory in the target survives by name with at least its
byte size (a source file colliding with a target directory is silently
dropped, as the counterexample shows); and (iii) when a same-named file
exists in both with equal sizes, the target's copy (its content) is
retained. -/
theorem merge_no_content_loss_amended (src tgt out : Entries)
    (hm : mergeEntries src tgt = some out) :
    (∀ n t c, findE n tgt = some (.file t c) →
      ∃ t2 c2, findE n out = some (.file t2 c2) ∧ t ≤ t2) ∧
    (∀ n s c, findE n src = some (.file s c) →
      (∀ mt sub, findE n tgt ≠ some (.dir mt sub)) →
      ∃ s2 c2, findE n out = some (.file s2 c2) ∧ s ≤ s2) ∧
    (∀ n s c c2, (EList.names src).Nodup →
      findE n src = some (.file s c) → findE n tgt = some (.file s c2) →
      findE n out = some (.file s c2)) := by
  refine ⟨?_, ?_, ?_⟩
  · intro n t c hf
    obtain ⟨t2, c2, hf2, hrel⟩ := mergeEntries_mono src tgt out n t c hm hf
    exact ⟨t2, c2, hf2, by rcases hrel with h | ⟨h, _⟩ <;> omega⟩
  · intro n s c hs hnd
    exact mergeEntries_src src tgt out n s c hm hs hnd
  · intro n s c c2 hnd hs ht
    exact mergeEntries_tie src tgt out n s c c2 hm hnd hs ht

/-- C1 witness: a concrete completing merge with an equal-size collision,
evaluated and fed through the amended theorem. -/
theorem merge_no_content_loss_witness :
    mergeEntries c1src c1tgt = some c1tgt ∧
    ((∀ n t c, findE n c1tgt = some (.file t c) →
      ∃ t2 c2, findE n c1tgt = some (.file t2 c2) ∧ t ≤ t2) ∧
    (∀ n s c, findE n c1src = some (.file s c) →
      (∀ mt sub, findE n c1tgt ≠ some (.dir mt sub)) →
      ∃ s2 c2, findE n c1tgt = some (.file s2 c2) ∧ s ≤ s2) ∧
    (∀ n s c c2, (EList.names c1src).Nodup →
      findE n c1src = some (.file s c) → findE n c1tgt = some (.file s c2) →
      findE n c1tgt = some (.file s c2))) :=
  ⟨by decide, merge_no_content_loss_amended c1src c1tgt c1tgt (by decide)⟩

/-! ## Duplicate pass closed forms -/

theorem dupDeleteLoop_eq (dry : Bool) :
    ∀ (fs : List AudioFile) (s : FS) (k : Nat),
      dupDeleteLoop false dry fs s k =
        .ok (⟨(dupGroupDeleteActs dry fs).foldl applyAct s.tree,
              s.acts ++ dupGroupDeleteActs dry fs⟩, k + fs.length)
  | [], s, k => by simp [dupDeleteLoop, dupGroupDeleteActs]
  | f :: fs, s, k => by
    cases dry with
    | true =>
      simp only [dupDeleteLoop, validateCIP_false, if_pos, dupDeleteLoop_eq true fs s (k + 1)]
      simp [dupGroupDeleteActs]
      omega
    | false =>
      simp only [dupDeleteLoop, validateCIP_false, Bool.false_eq_true, if_false,
        dupDeleteLoop_eq false fs (perform s (.deleteFile (f.dir ++ [f.entry]))) (k + 1)]
      simp [dupGroupDeleteActs, perform, deleteActOf]
      omega

theorem dupRename_eq (dry : Bool) (renameOk : List String → String → String → Bool)
    (keep : AudioFile) (s : FS) :
    dupRename dry renameOk keep s =
      (⟨(dupGroupRenameActs dry renameOk keep).foldl applyAct s.tree,
        s.acts ++ dupGroupRenameActs dry renameOk keep⟩,
       renCount dry renameOk keep) := by
  cases hb : renameBase keep.name with
  | none => simp [dupRename, dupGroupRenameActs, renCount, hb]
  | some base =>
    cases dry with
    | true => simp [dupRename, dupGroupRenameActs, renCount, hb]
    | false =>
      by_cases hok : renameOk keep.dir keep.entry (base ++ extnameOf keep.entry)
      · simp [dupRename, dupGroupRenameActs, renCount, hb, hok, perform]
      · simp [dupRename, dupGroupRenameActs, renCount, hb, hok]

theorem dupProcessGroup_eq (dry : Bool) (renameOk : List String → String → String → Bool)
    (g : List AudioFile) (s : FS) (cnt : DupCounters) :
    dupProcessGroup false dry renameOk g s cnt =
      .ok (⟨(dupGroupActs dry renameOk g).foldl applyAct s.tree,
            s.acts ++ dupGroupActs dry renameOk g⟩,
           ⟨cnt.duplicateFilesDeleted + groupDelCount g,
            cnt.filesRenamed + groupRenCount dry renameOk g⟩) := by
  by_cases hg : 1 < g.length
  · cases hs : sortByDesc (fun f => f.size) g with
    | nil =>
      exfalso
      have := (sortByDesc_perm (fun f => f.size) g).length_eq
      rw [hs] at this
      simp at this
      omega
    | cons keep dels =>
      have hdel : dels.length = g.length - 1 := by
        have := (sortByDesc_perm (fun f => f.size) g).length_eq
        rw [hs] at this
        simp at this
        omega
      simp only [dupProcessGroup, if_pos hg, hs, dupDeleteLoop_eq dry dels s 0,
        dupRename_eq dry renameOk keep]
      simp only [dupGroupActs, if_pos hg, hs, groupDelCount, groupRenCount]
      simp [List.foldl_append, hdel]
  · simp [dupProcessGroup, dupGroupActs, groupDelCount, groupRenCount, hg]

theorem dupInnerLoop_eq (dry : Bool) (renameOk : List String → String → String → Bool) :
    ∀ (gs : List (String × List AudioFile)) (s : FS) (cnt : DupCounters),
      dupInnerLoop false dry renameOk gs s cnt =
        .ok (⟨(dupInnerActs dry renameOk gs).foldl applyAct s.tree,
              s.acts ++ dupInnerActs dry renameOk gs⟩,
             ⟨cnt.duplicateFilesDeleted + innerDelCount gs,
              cnt.filesRenamed + innerRenCount dry renameOk gs⟩)
  | [], s, cnt => by simp [dupInnerLoop, dupInnerActs, innerDelCount, innerRenCount]
  | (nm, g) :: gs, s, cnt => by
    simp only [dupInnerLoop, validateCIP_false, dupProcessGroup_eq dry renameOk g s cnt,
      dupInnerLoop_eq dry renameOk gs]
    simp [dupInnerActs, innerDelCount, innerRenCount, List.foldl_append]
    omega

theorem dupOuterLoop_eq (dry : Bool) (renameOk : List String → String → String → Bool) :
    ∀ (ms : List (List String × List (String × List AudioFile))) (s : FS)
      (cnt : DupCounters),
      dupOuterLoop false dry renameOk ms s cnt =
        .ok (⟨(dupOuterActs dry renameOk ms).foldl applyAct s.tree,
              s.acts ++ dupOuterActs dry renameOk ms⟩,
             ⟨cnt.duplicateFilesDeleted + outerDelCount ms,
              cnt.filesRenamed + outerRenCount dry renameOk ms⟩)
  | [], s, cnt => by simp [dupOuterLoop, dupOuterActs, outerDelCount, outerRenCount]
  | (d, m) :: ms, s, cnt => by
    simp only [dupOuterLoop, validateCIP_false, dupInnerLoop_eq dry renameOk m s cnt,
      dupOuterLoop_eq dry renameOk ms]
    simp [dupOuterActs, outerDelCount, outerRenCount, List.foldl_append]
    omega

/-- Closed form of the whole duplicate pass with the flag cleared. -/
theorem cleanupDuplicates_eq (dry : Bool)
    (renameOk : List String → String → String → Bool) (root : Entries) :
    cleanupDuplicates false dry renameOk root =
      .ok (⟨(dupOuterActs dry renameOk (dupGroups (collectAudio [] root))).foldl
              applyAct root,
            dupOuterActs dry renameOk (dupGroups (collectAudio [] root))⟩,
           ⟨outerDelCount (dupGroups (collectAudio [] root)),
            outerRenCount dry renameOk (dupGroups (collectAudio [] root))⟩) := by
  simp only [cleanupDuplicates, validateCIP_false,
    dupOuterLoop_eq dry renameOk (dupGroups (collectAudio [] root)) ⟨root, []⟩ ⟨0, 0⟩]
  simp

/-! ## Format pass closed forms -/

theorem mp3DeleteLoop_eq (dry : Bool) :
    ∀ (fs : List AudioFile) (s : FS) (k : Nat),
      mp3DeleteLoop false dry fs s k =
        .ok (⟨(dupGroupDeleteActs dry fs).foldl applyAct s.tree,
              s.acts ++ dupGroupDeleteActs dry fs⟩, k + fs.length)
  | [], s, k => by simp [mp3DeleteLoop, dupGroupDeleteActs]
  | f :: fs, s, k => by
    cases dry with
    | true =>
      simp only [mp3DeleteLoop, validateCIP_false, if_pos, mp3DeleteLoop_eq true fs s (k + 1)]
      simp [dupGroupDeleteActs]
      omega
    | false =>
      simp only [mp3DeleteLoop, validateCIP_false, Bool.false_eq_true, if_false,
        mp3DeleteLoop_eq false fs (perform s (.deleteFile (f.dir ++ [f.entry]))) (k + 1)]
      simp [dupGroupDeleteActs, perform, deleteActOf]
      omega

theorem mp3ProcessGroup_eq (dry : Bool) (g : List AudioFile) (s : FS) (k : Nat) :
    mp3ProcessGroup false dry g s k =
      .ok (⟨(mp3GroupActs dry g).foldl applyAct s.tree,
            s.acts ++ mp3GroupActs dry g⟩, k + groupMp3Count g) := by
  by_cases hc : g.any (fun f => f.extension = ".flac") = true ∧
      0 < (g.filter (fun f => f.extension = ".mp3")).length
  · simp only [mp3ProcessGroup, if_pos hc,
      mp3DeleteLoop_eq dry (g.filter (fun f => f.extension = ".mp3")) s k]
    cases dry with
    | true => simp [mp3GroupActs, groupMp3Count, hc, dupGroupDeleteActs]
    | false => simp [mp3GroupActs, groupMp3Count, hc, dupGroupDeleteActs]
  · simp only [mp3ProcessGroup, mp3GroupActs, groupMp3Count, if_neg hc]
    simp

theorem mp3InnerLoop_eq (dry : Bool) :
    ∀ (gs : List (String × List AudioFile)) (s : FS) (k : Nat),
      mp3InnerLoop false dry gs s k =
        .ok (⟨(mp3InnerActs dry gs).foldl applyAct s.tree,
              s.acts ++ mp3InnerActs dry gs⟩, k + innerMp3Count gs)
  | [], s, k => by simp [mp3InnerLoop, mp3InnerActs, innerMp3Count]
  | (nm, g) :: gs, s, k => by
    simp only [mp3InnerLoop, validateCIP_false, mp3ProcessGroup_eq dry g s k,
      mp3InnerLoop_eq dry gs]
    simp [mp3InnerActs, innerMp3Count, List.foldl_append]
    omega

theorem mp3OuterLoop_eq (dry : Bool) :
    ∀ (ms : List (List String × List (String × List AudioFile))) (s : FS) (k : Nat),
      mp3OuterLoop false dry ms s k =
        .ok (⟨(mp3OuterActs dry ms).foldl applyAct s.tree,
              s.acts ++ mp3OuterActs dry ms⟩, k + outerMp3Count ms)
  | [], s, k => by simp [mp3OuterLoop, mp3OuterActs, outerMp3Count]
  | (d, m) :: ms, s, k => by
    simp only [mp3OuterLoop, validateCIP_false, mp3InnerLoop_eq dry m s k,
      mp3OuterLoop_eq dry ms]
    simp [mp3OuterActs, outerMp3Count, List.foldl_append]
    omega

/-- Closed form of the whole format pass with the flag cleared. -/
theorem cleanupMp3Flac_eq (dry : Bool) (root : Entries) :
    cleanupMp3Flac false dry root =
      .ok (⟨(mp3OuterActs dry (mp3Groups (collectAudio [] root))).foldl applyAct root,
            mp3OuterActs dry (mp3Groups (collectAudio [] root))⟩,
           outerMp3Count (mp3Groups (collectAudio [] root))) := by
  simp only [cleanupMp3Flac, validateCIP_false,
    mp3OuterLoop_eq dry (mp3Groups (collectAudio [] root)) ⟨root, []⟩ 0]
  simp

/-! ## Directory pass closed forms -/

theorem dirMergeLoop_eq (dry : Bool) (keep : DirectoryInfo) :
    ∀ (ds : List DirectoryInfo) (s : FS) (k : Nat),
      dirMergeLoop dry keep ds s k =
        (⟨(dirMergeActs dry keep ds).foldl applyAct s.tree,
          s.acts ++ dirMergeActs dry keep ds⟩,
         k + (ds.filter (fun d => d.path ≠ keep.path)).length)
  | [], s, k => by simp [dirMergeLoop, dirMergeActs]
  | d :: ds, s, k => by
    by_cases hd : d.path = keep.path
    · simp only [dirMergeLoop, if_pos hd, dirMergeLoop_eq dry keep ds s k]
      simp [dirMergeActs, List.filter_cons, hd]
    · cases dry with
      | true =>
        simp only [dirMergeLoop, if_neg hd, if_pos, dirMergeLoop_eq true keep ds s (k + 1)]
        simp [dirMergeActs, List.filter_cons, hd]
        omega
      | false =>
        simp only [dirMergeLoop, if_neg hd, Bool.false_eq_true, if_false,
          dirMergeLoop_eq false keep ds (perform s (.mergeDirs d.path keep.path)) (k + 1)]
        simp [dirMergeActs, List.filter_cons, hd, perform]
        omega

theorem dirNameLoop_eq (dry : Bool) :
    ∀ (gs : List (String × List DirectoryInfo)) (s : FS) (k : Nat),
      dirNameLoop dry gs s k =
        (⟨(dirInnerActs dry gs).foldl applyAct s.tree,
          s.acts ++ dirInnerActs dry gs⟩, k + innerMergeCount gs)
  | [], s, k => by simp [dirNameLoop, dirInnerActs, innerMergeCount]
  | (nm, g) :: gs, s, k => by
    by_cases hg : 1 < g.length
    · simp only [dirNameLoop, if_pos hg, dirMergeLoop_eq dry (selectDirectoryToKeep g) g s k,
        dirNameLoop_eq dry gs]
      simp only [dirInnerActs, innerMergeCount, dirGroupActs, groupMergeCount]
      simp [List.foldl_append, hg]
      omega
    · simp only [dirNameLoop, if_neg hg, dirNameLoop_eq dry gs s k]
      simp [dirInnerActs, innerMergeCount, dirGroupActs, groupMergeCount, hg]

theorem dirContextLoop_eq (dry : Bool) :
    ∀ (ms : List (List String × List (String × List DirectoryInfo))) (s : FS) (k : Nat),
      dirContextLoop dry ms s k =
        (⟨(dirOuterActs dry ms).foldl applyAct s.tree,
          s.acts ++ dirOuterActs dry ms⟩, k + outerMergeCount ms)
  | [], s, k => by simp [dirContextLoop, dirOuterActs, outerMergeCount]
  | (d, m) :: ms, s, k => by
    simp only [dirContextLoop, dirNameLoop_eq dry m s k, dirContextLoop_eq dry ms]
    simp [dirOuterActs, outerMergeCount, List.foldl_append]
    omega

/-- Closed form of the whole fuzzy directory pass (which never polls the
cancellation flag, for either value of the flag). -/
theorem cleanupDirectories_eq (c dry : Bool) (root : Entries) :
    cleanupDirectories c dry root =
      .ok (⟨(dirOuterActs dry (dirContextGroups (collectDirInfos [] root))).foldl
              applyAct root,
            dirOuterActs dry (dirContextGroups (collectDirInfos [] root))⟩,
           outerMergeCount (dirContextGroups (collectDirInfos [] root))) := by
  simp only [cleanupDirectories,
    dirContextLoop_eq dry (dirContextGroups (collectDirInfos [] root)) ⟨root, []⟩ 0]
  simp

/-! ## Reclaimer closed forms -/

theorem reclaimDeleteEmpties_eq (dry : Bool) :
    ∀ (l : List (List String)) (s : FS),
      reclaimDeleteEmpties dry l s =
        ⟨(emptiesActs dry l).foldl applyAct s.tree, s.acts ++ emptiesActs dry l⟩
  | [], s => by simp [reclaimDeleteEmpties, emptiesActs]
  | d :: ds, s => by
    cases dry with
    | true =>
      simp only [reclaimDeleteEmpties, if_pos, reclaimDeleteEmpties_eq true ds s]
      simp [emptiesActs]
    | false =>
      simp only [reclaimDeleteEmpties, Bool.false_eq_true, if_false,
        reclaimDeleteEmpties_eq false ds (perform s (.deleteDir d))]
      simp [emptiesActs, perform]

theorem reclaimDeleteNoAudio_eq (dry : Bool) (caseIss errs : List (List String)) :
    ∀ (l : List (List String)) (s : FS),
      reclaimDeleteNoAudio dry caseIss errs l s =
        ⟨(noAudioActs dry caseIss errs l).foldl applyAct s.tree,
         s.acts ++ noAudioActs dry caseIss errs l⟩
  | [], s => by simp [reclaimDeleteNoAudio, noAudioActs]
  | d :: ds, s => by
    by_cases hd : d ∈ caseIss ∨ d ∈ errs
    · have hd2 : ¬ (d ∉ caseIss ∧ d ∉ errs) := by tauto
      simp only [reclaimDeleteNoAudio, if_pos hd, reclaimDeleteNoAudio_eq dry caseIss errs ds s]
      simp [noAudioActs, List.filter_cons, hd2]
    · have hd2 : d ∉ caseIss ∧ d ∉ errs := by tauto
      cases dry with
      | true =>
        simp only [reclaimDeleteNoAudio, if_neg hd, if_pos,
          reclaimDeleteNoAudio_eq true caseIss errs ds s]
        simp [noAudioActs, List.filter_cons, hd2]
      | false =>
        simp only [reclaimDeleteNoAudio, if_neg hd, Bool.false_eq_true, if_false,
          reclaimDeleteNoAudio_eq false caseIss errs ds (perform s (.deleteDir d))]
        simp [noAudioActs, List.filter_cons, hd2, perform]

/-- Closed form of the whole reclaimer (which never polls the cancellation
flag, for either value of the flag): with `b` the classification of the
scanned directories, the pass deletes the empties, then the unflagged
no-audio directories. -/
theorem cleanupEmptyDirs_eq (c dry : Bool) (skip : List (List String)) (root : Entries) :
    cleanupEmptyDirs c dry skip root =
      .ok (⟨(emptiesActs dry (classifyAll (treeOracles root) skip
               (collectDirPaths [] root)).empties ++
             noAudioActs dry
               (classifyAll (treeOracles root) skip (collectDirPaths [] root)).caseIss
               (classifyAll (treeOracles root) skip (collectDirPaths [] root)).errs
               (classifyAll (treeOracles root) skip (collectDirPaths [] root)).noAudio).foldl
              applyAct root,
            emptiesActs dry (classifyAll (treeOracles root) skip
               (collectDirPaths [] root)).empties ++
             noAudioActs dry
               (classifyAll (treeOracles root) skip (collectDirPaths [] root)).caseIss
               (classifyAll (treeOracles root) skip (collectDirPaths [] root)).errs
               (classifyAll (treeOracles root) skip (collectDirPaths [] root)).noAudio⟩,
           classifyAll (treeOracles root) skip (collectDirPaths [] root)) := by
  simp only [cleanupEmptyDirs, cleanupEmptyDirsCore,
    reclaimDeleteEmpties_eq dry
      (classifyAll (treeOracles root) skip (collectDirPaths [] root)).empties ⟨root, []⟩,
    reclaimDeleteNoAudio_eq dry
      (classifyAll (treeOracles root) skip (collectDirPaths [] root)).caseIss
      (classifyAll (treeOracles root) skip (collectDirPaths [] root)).errs
      (classifyAll (treeOracles root) skip (collectDirPaths [] root)).noAudio]
  simp [List.foldl_append]

/-! ## C9: cancellation polling -/

/-- C9 counterexample: with the cancellation flag raised, the duplicate and
format passes stop at their first poll, but the fuzzy directory pass on
`c9root` still performs a live merge — it contains no poll at all (and the
reclaimer ignores the flag likewise), refuting "every mutating component
polls the process-wide cancellation flag at the top of every loop body ...
and before every individual destructive filesystem operation". -/
theorem cancellation_poll_counterexample :
    cleanupDuplicates true false (fun _ _ _ => true) c9root = .error .user ∧
    cleanupMp3Flac true false c9root = .error .user ∧
    (cleanupDirectories true false c9root).map (fun r => r.1.acts) =
      .ok [Action.mergeDirs ["X", "Cafe"] ["X", "Café"]] ∧
    [Action.mergeDirs ["X", "Cafe"] ["X", "Café"]] ≠ ([] : List Action) :=
  ⟨rfl, rfl, rfl, by simp⟩

/-- C9 amended: the duplicate and format passes poll the process-wide flag
(raising the interruption at their first poll once it is set), while the
fuzzy directory pass and the reclaimer never consult it — their results are
identical for either flag value, destructive operations included. -/
theorem cancellation_poll_amended (dry : Bool)
    (renameOk : List String → String → String → Bool)
    (skip : List (List String)) (root : Entries) :
    cleanupDuplicates true dry renameOk root = .error .user ∧
    cleanupMp3Flac true dry root = .error .user ∧
    cleanupDirectories true dry root = cleanupDirectories false dry root ∧
    cleanupEmptyDirs true dry skip root = cleanupEmptyDirs false dry skip root :=
  ⟨rfl, rfl, rfl, rfl⟩

/-! ## C10: idempotence of the full reconciliation -/

/-- C10 counterexample: on `ex10root` (case-variant directory pairs at two
levels) the second full reconciliation run still performs a merge, because
the first run's merge of `P/Cafe` into `P/Café` creates a fresh
`Sub`/`SUB` fuzzy pair that only the next run can see — running the
pipeline twice is not mutation-free on the second run. -/
theorem idempotence_counterexample :
    secondRunActs ex10root =
      some [Action.mergeDirs ["P", "Café", "SUB"] ["P", "Café", "Sub"]] ∧
    some [Action.mergeDirs ["P", "Café", "SUB"] ["P", "Café", "Sub"]] ≠
      some ([] : List Action) :=
  ⟨rfl, by simp⟩

/-- A reclaimer run that reports no actions left its tree untouched. -/
theorem reclaim_acts_nil (c dry : Bool) (skip : List (List String)) (root : Entries)
    (s : FS) (b : RBuckets) (h : cleanupEmptyDirs c dry skip root = .ok (s, b))
    (ha : s.acts = []) : s.tree = root := by
  rw [cleanupEmptyDirs_eq] at h
  have h2 := Except.ok.inj h
  have hs := (congrArg Prod.fst h2).symm
  subst hs
  simp only [List.append_eq_nil] at ha
  obtain ⟨hE, hN⟩ := ha
  show List.foldl applyAct root _ = root
  rw [hE, hN]
  rfl

/-- A duplicate pass that reports no actions left its tree untouched. -/
theorem dup_acts_nil (dry : Bool) (renameOk : List String → String → String → Bool)
    (root : Entries) (s : FS) (cnt : DupCounters)
    (h : cleanupDuplicates false dry renameOk root = .ok (s, cnt))
    (ha : s.acts = []) : s.tree = root := by
  rw [cleanupDuplicates_eq] at h
  have h2 := Except.ok.inj h
  have hs := (congrArg Prod.fst h2).symm
  subst hs
  show List.foldl applyAct root _ = root
  rw [show dupOuterActs dry renameOk (dupGroups (collectAudio [] root)) = [] from ha]
  rfl

/-- A format pass that reports no actions left its tree untouched. -/
theorem mp3_acts_nil (dry : Bool) (root : Entries) (s : FS) (k : Nat)
    (h : cleanupMp3Flac false dry root = .ok (s, k)) (ha : s.acts = []) :
    s.tree = root := by
  rw [cleanupMp3Flac_eq] at h
  have h2 := Except.ok.inj h
  have hs := (congrArg Prod.fst h2).symm
  subst hs
  show List.foldl applyAct root _ = root
  rw [show mp3OuterActs dry (mp3Groups (collectAudio [] root)) = [] from ha]
  rfl

/-- A fuzzy directory pass that reports no actions left its tree
untouched. -/
theorem dir_acts_nil (c dry : Bool) (root : Entries) (s : FS) (k : Nat)
    (h : cleanupDirectories c dry root = .ok (s, k)) (ha : s.acts = []) :
    s.tree = root := by
  rw [cleanupDirectories_eq] at h
  have h2 := Except.ok.inj h
  have hs := (congrArg Prod.fst h2).symm
  subst hs
  show List.foldl applyAct root _ = root
  rw [show dirOuterActs dry (dirContextGroups (collectDirInfos [] root)) = [] from ha]
  rfl

/-- C10 amended: a run that reports zero actions is a fixed point — its
tree equals its input, so running the full reconciliation again from that
tree is the identical computation (hence performs zero mutations). -/
theorem idempotence_amended (dry : Bool) (skip : List (List String)) (root : Entries)
    (r : FS × AllCounters) (h : runCleanupTasks dry skip root = .ok r)
    (hacts : r.1.acts = []) :
    r.1.tree = root ∧
    runCleanupTasks dry skip r.1.tree = runCleanupTasks dry skip root := by
  refine ?_
  cases h1 : cleanupEmptyDirs false dry skip root with
  | error e =>
    rw [runCleanupTasks, h1] at h
    exact Except.noConfusion h
  | ok p1 =>
    obtain ⟨s1, b⟩ := p1
    cases h2 : cleanupDuplicates false dry (fun _ _ _ => true) s1.tree with
    | error e =>
      simp only [runCleanupTasks, h1, h2] at h
      exact Except.noConfusion h
    | ok p2 =>
      obtain ⟨s2, dc⟩ := p2
      cases h3 : cleanupMp3Flac false dry s2.tree with
      | error e =>
        simp only [runCleanupTasks, h1, h2, h3] at h
        exact Except.noConfusion h
      | ok p3 =>
        obtain ⟨s3, mc⟩ := p3
        cases h4 : cleanupDirectories false dry s3.tree with
        | error e =>
          simp only [runCleanupTasks, h1, h2, h3, h4] at h
          exact Except.noConfusion h
        | ok p4 =>
          obtain ⟨s4, kc⟩ := p4
          simp only [runCleanupTasks, h1, h2, h3, h4] at h
          have hr := (Except.ok.inj h).symm
          subst hr
          simp only [List.append_eq_nil] at hacts
          obtain ⟨⟨⟨hE, hD⟩, hM⟩, hK⟩ := hacts
          have t1 : s1.tree = root := reclaim_acts_nil false dry skip root s1 b h1 hE
          rw [t1] at h2
          have t2 : s2.tree = root := dup_acts_nil dry _ root s2 dc h2 hD
          rw [t2] at h3
          have t3 : s3.tree = root := mp3_acts_nil dry root s3 mc h3 hM
          rw [t3] at h4
          have t4 : s4.tree = root := dir_acts_nil false dry root s4 kc h4 hK
          exact ⟨t4, congrArg (runCleanupTasks dry skip) t4⟩

/-- Witness for C10 amended: a single audio directory is already resolved —
the run reports zero actions, and the fixed-point theorem applies. -/
theorem idempotence_amended_witness :
    runCleanupTasks false [] w10root =
      .ok ((⟨w10root, []⟩ : FS), (⟨⟨0, 0⟩, 0, 0⟩ : AllCounters)) ∧
    ((⟨w10root, []⟩ : FS), (⟨⟨0, 0⟩, 0, 0⟩ : AllCounters)).1.tree = w10root :=
  ⟨rfl, (idempotence_amended false [] w10root
    ((⟨w10root, []⟩ : FS), (⟨⟨0, 0⟩, 0, 0⟩ : AllCounters)) rfl rfl).1⟩
/-! ## C3: format precedence -/

/-- C3 counterexample: `c3root` holds a same-named FLAC/WAV pair — one
lossless and one lossy record in one (directory, normalized name) group —
yet the live format pass deletes nothing (the code only ever deletes
`.mp3` records), so the lossy `.wav` remains, refuting "no lossy file of
that group remains". -/
theorem format_precedence_counterexample :
    (["M"], [("a", [c3x, c3y])]) ∈ mp3Groups (collectAudio [] c3root) ∧
    ("a", [c3x, c3y]) ∈ [("a", [c3x, c3y])] ∧
    ([c3x, c3y].any fun f => isLosslessExt f.extension) = true ∧
    ([c3x, c3y].any fun f => isLossyExt f.extension) = true ∧
    cleanupMp3Flac false false c3root = .ok (⟨c3root, []⟩, 0) :=
  ⟨by decide, by decide, by decide, by decide, rfl⟩

/-- C3 amended: in a live format pass, for every (directory, normalized
name) group containing at least one `.flac` record, every `.mp3` record of
the group is deleted regardless of relative sizes — and those are the only
deletions the pass ever performs (`.wav` records, though lossy, are never
touched). -/
theorem format_precedence_amended (root : Entries) (d : List String)
    (m : List (String × List AudioFile)) (nm : String) (g : List AudioFile)
    (h1 : (d, m) ∈ mp3Groups (collectAudio [] root)) (h2 : (nm, g) ∈ m)
    (hflac : (g.any fun f => f.extension = ".flac") = true) :
    (∀ f ∈ g, f.extension = ".mp3" →
       deleteActOf f ∈ mp3OuterActs false (mp3Groups (collectAudio [] root))) ∧
    (∀ a ∈ mp3OuterActs false (mp3Groups (collectAudio [] root)),
       ∃ f2, a = deleteActOf f2 ∧ f2.extension = ".mp3") ∧
    cleanupMp3Flac false false root =
      .ok (⟨(mp3OuterActs false (mp3Groups (collectAudio [] root))).foldl applyAct root,
            mp3OuterActs false (mp3Groups (collectAudio [] root))⟩,
           outerMp3Count (mp3Groups (collectAudio [] root))) := by
  refine ⟨?_, ?_, cleanupMp3Flac_eq false root⟩
  · intro f hf hmp3
    have hfm : f ∈ g.filter (fun f2 => f2.extension = ".mp3") :=
      List.mem_filter.mpr ⟨hf, by simp [hmp3]⟩
    have hcond : (g.any fun f2 => f2.extension = ".flac") = true ∧
        0 < (g.filter (fun f2 => f2.extension = ".mp3")).length :=
      ⟨hflac, List.length_pos.mpr (List.ne_nil_of_mem hfm)⟩
    have hg : deleteActOf f ∈ mp3GroupActs false g := by
      simp only [mp3GroupActs, if_pos hcond, Bool.false_eq_true, if_false]
      exact List.mem_map_of_mem deleteActOf hfm
    have hi : deleteActOf f ∈ mp3InnerActs false m := by
      simp only [mp3InnerActs, List.mem_flatten]
      exact ⟨mp3GroupActs false g, List.mem_map_of_mem _ h2, hg⟩
    simp only [mp3OuterActs, List.mem_flatten]
    exact ⟨mp3InnerActs false m, List.mem_map_of_mem _ h1, hi⟩
  · intro a ha
    simp only [mp3OuterActs, List.mem_flatten, List.mem_map] at ha
    obtain ⟨_, ⟨p, hp, rfl⟩, ha⟩ := ha
    simp only [mp3InnerActs, List.mem_flatten, List.mem_map] at ha
    obtain ⟨_, ⟨q, hq, rfl⟩, ha⟩ := ha
    simp only [mp3GroupActs] at ha
    split at ha
    · simp only [Bool.false_eq_true, if_false, List.mem_map] at ha
      obtain ⟨f2, hf2, rfl⟩ := ha
      exact ⟨f2, rfl, by simpa using (List.mem_filter.mp hf2).2⟩
    · cases ha

/-- Witness for C3 amended: a same-named FLAC/MP3 pair — the MP3, though
twice the size, is deleted, and nothing else is. -/
theorem format_precedence_amended_witness :
    ((∀ f ∈ [c3f, c3m], f.extension = ".mp3" →
        deleteActOf f ∈ mp3OuterActs false (mp3Groups (collectAudio [] c3wroot))) ∧
     (∀ a ∈ mp3OuterActs false (mp3Groups (collectAudio [] c3wroot)),
        ∃ f2, a = deleteActOf f2 ∧ f2.extension = ".mp3") ∧
     cleanupMp3Flac false false c3wroot =
       .ok (⟨(mp3OuterActs false (mp3Groups (collectAudio [] c3wroot))).foldl
               applyAct c3wroot,
             mp3OuterActs false (mp3Groups (collectAudio [] c3wroot))⟩,
            outerMp3Count (mp3Groups (collectAudio [] c3wroot)))) ∧
    (c3m.size = 2 * c3f.size ∧ c3f.extension = ".flac") :=
  ⟨format_precedence_amended c3wroot ["M"] [("b", [c3f, c3m])] "b" [c3f, c3m]
    (by decide) (by decide) (by decide), by decide⟩

/-! ## C6: fuzzy-match scope -/

/-- C6 counterexample: the context of a depth-four directory is its FULL
three-segment parent path, not its first two segments; and a depth-one
(root-level) directory's context is its own single-segment path — not
empty — so root-level directories do participate in fuzzy matching: on
`c6root` the root-level directory `Cafe` fuzzy-groups with its own child
`Cafe/Cafe` and a live pass merges the child into it. -/
theorem album_context_counterexample :
    getAlbumContext ["A", "B", "C", "D"] = ["A", "B", "C"] ∧
    (["A", "B", "C"] : List String) ≠ ["A", "B"] ∧
    getAlbumContext ["Cafe"] = ["Cafe"] ∧
    (["Cafe"] : List String) ≠ [] ∧
    (cleanupDirectories false false c6root).map (fun r => r.1.acts) =
      .ok [Action.mergeDirs ["Cafe", "Cafe"] ["Cafe"]] :=
  ⟨rfl, by simp, rfl, by simp, rfl⟩

/-- C6 amended: the context of a candidate directory is its full parent
path relative to the scan root (every segment but the last) at depth two
or more, and its own single-segment path at depth one — root-level
directories therefore carry a non-empty context and can fuzzy-match; only
depth-zero (empty) contexts are excluded.  Within the grouping, every
member of a fuzzy group shares the group's context and normalized name, so
directories with identical normalized names but different contexts are
never merged into each other. -/
theorem album_context_amended (dirs : List DirectoryInfo) (ctx : List String)
    (m : List (String × List DirectoryInfo)) (nm : String) (g : List DirectoryInfo)
    (h1 : (ctx, m) ∈ dirContextGroups dirs) (h2 : (nm, g) ∈ m) :
    (∀ rel : List String,
       getAlbumContext rel = if rel.length ≤ 1 then rel else rel.dropLast) ∧
    ∀ d ∈ g, d ∈ dirs ∧ ctx ≠ [] ∧ getAlbumContext d.path = ctx ∧
      normalizeForFuzzyMatching d.name = nm := by
  constructor
  · intro rel
    simp only [getAlbumContext]
    rcases rel with _ | ⟨a, _ | ⟨b, t⟩⟩ <;> simp
  · intro d hd
    simp only [dirContextGroups, List.mem_map] at h1
    obtain ⟨⟨pk, pl⟩, hp, hpe⟩ := h1
    rw [Prod.mk.injEq] at hpe
    obtain ⟨rfl, rfl⟩ := hpe
    have hnm := groupByKey_key_eq _ pl (nm, g) h2 d hd
    have hdp := groupByKey_mem_src _ pl (nm, g) h2 d hd
    have hkey := groupByKey_key_eq (fun d2 => getAlbumContext d2.path) _ _ hp d hdp
    have hde := groupByKey_mem_src (fun d2 => getAlbumContext d2.path) _ _ hp d hdp
    have hdd := List.mem_filter.mp hde
    refine ⟨hdd.1, ?_, hkey, hnm⟩
    rw [← hkey]
    simpa using hdd.2

/-- Witness for C6 amended: two depth-three case-variant siblings share
the full two-segment parent context and one normalized name. -/
theorem album_context_amended_witness :
    (∀ rel : List String,
       getAlbumContext rel = if rel.length ≤ 1 then rel else rel.dropLast) ∧
    ∀ d ∈ [c6d1, c6d2], d ∈ c6dirs ∧ (["X", "Y"] : List String) ≠ [] ∧
      getAlbumContext d.path = ["X", "Y"] ∧
      normalizeForFuzzyMatching d.name = "cafe" :=
  album_context_amended c6dirs ["X", "Y"] [("cafe", [c6d1, c6d2])] "cafe" [c6d1, c6d2]
    (by decide) (by decide)

/-! ## C7: canonical directory selection -/

theorem listMaxBy_attained {α : Type} (key : α → Nat) {l : List α} (h : l ≠ []) :
    ∃ x ∈ l, key x = listMaxBy key l := by
  cases hm : firstMaxBy key l with
  | none => exact absurd (firstMaxBy_eq_none key hm) h
  | some b => exact ⟨b, firstMaxBy_mem key hm, firstMaxBy_key key hm⟩

theorem filter_max_ne_nil {α : Type} (key : α → Nat) {l : List α} (h : l ≠ []) :
    l.filter (fun a => key a = listMaxBy key l) ≠ [] := by
  obtain ⟨x, hx, hk⟩ := listMaxBy_attained key h
  exact List.ne_nil_of_mem (List.mem_filter.mpr ⟨hx, by simp [hk]⟩)

theorem headD_mem {α : Type} [Inhabited α] {l : List α} (h : l ≠ []) :
    l.headD default ∈ l := by
  cases l with
  | nil => exact absurd rfl h
  | cons a t => simp [List.headD]

theorem headD_eq_head? {α : Type} (l : List α) (d : α) :
    l.headD d = (l.head?).getD d := by
  cases l <;> rfl

theorem sortByDesc_ne_nil {α : Type} (key : α → Nat) {l : List α} (h : l ≠ []) :
    sortByDesc key l ≠ [] := by
  intro he
  apply h
  apply List.eq_nil_of_length_eq_zero
  rw [← (sortByDesc_perm key l).length_eq, he]
  rfl

/-- The tie-break tail (maximal subfolder count, then most recent mtime,
then first in order) agrees with the spec's filter cascade on any nonempty
candidate set. -/
theorem select_stage2_eq (base : List DirectoryInfo) (hb : base ≠ []) :
    (if (base.filter (fun d => d.subfolderCount =
          listMaxBy (fun d2 => d2.subfolderCount) base)).length = 1 then
       (base.filter (fun d => d.subfolderCount =
          listMaxBy (fun d2 => d2.subfolderCount) base)).headD default
     else (sortByDesc (fun d => d.lastModified)
            (base.filter (fun d => d.subfolderCount =
               listMaxBy (fun d2 => d2.subfolderCount) base))).headD default) =
    (let f2 := base.filter (fun d => d.subfolderCount =
        listMaxBy (fun d2 => d2.subfolderCount) base)
     let d2 := if f2.length = 0 then base else f2
     let f3 := d2.filter (fun d => d.lastModified =
        listMaxBy (fun d2 => d2.lastModified) d2)
     let d3 := if f3.length = 0 then d2 else f3
     d3.headD default) := by
  have hf2 : base.filter (fun d => d.subfolderCount =
      listMaxBy (fun d2 => d2.subfolderCount) base) ≠ [] :=
    filter_max_ne_nil _ hb
  have hz2 : ¬ (base.filter (fun d => d.subfolderCount =
      listMaxBy (fun d2 => d2.subfolderCount) base)).length = 0 := by
    simpa [List.length_eq_zero] using hf2
  by_cases h2 : (base.filter (fun d => d.subfolderCount =
      listMaxBy (fun d2 => d2.subfolderCount) base)).length = 1
  · obtain ⟨b, hb2⟩ := List.length_eq_one.mp h2
    rw [if_pos h2]
    simp only [hb2, if_neg hz2]
    simp [listMaxBy]
  · rw [if_neg h2]
    simp only [if_neg hz2]
    have hf3 : (base.filter (fun d => d.subfolderCount =
        listMaxBy (fun d2 => d2.subfolderCount) base)).filter
          (fun d => d.lastModified = listMaxBy (fun d2 => d2.lastModified)
            (base.filter (fun d3 => d3.subfolderCount =
              listMaxBy (fun d2 => d2.subfolderCount) base))) ≠ [] :=
      filter_max_ne_nil _ hf2
    have hz3 : ¬ ((base.filter (fun d => d.subfolderCount =
        listMaxBy (fun d2 => d2.subfolderCount) base)).filter
          (fun d => d.lastModified = listMaxBy (fun d2 => d2.lastModified)
            (base.filter (fun d3 => d3.subfolderCount =
              listMaxBy (fun d2 => d2.subfolderCount) base)))).length = 0 := by
      simpa [List.length_eq_zero] using hf3
    rw [if_neg hz3, headD_eq_head?, headD_eq_head?, sortByDesc_head?, filter_max_head]

/-- C7: the keeper selection equals the spec's deterministic filter cascade
(diacritics, then greatest subfolder count, then most recent mtime, then
first in original order), and whenever any candidate has diacritics the
selected directory has them — regardless of subfolder counts. -/
theorem selection_total_order (dirs : List DirectoryInfo) (h : dirs ≠ []) :
    selectDirectoryToKeep dirs = specSelectDirectory dirs ∧
    ((dirs.filter fun d => d.hasAccents) ≠ [] →
      (selectDirectoryToKeep dirs).hasAccents = true) := by
  constructor
  · by_cases h1 : (dirs.filter fun d => d.hasAccents).length = 1
    · obtain ⟨a, ha⟩ := List.length_eq_one.mp h1
      simp only [selectDirectoryToKeep, specSelectDirectory, ha]
      simp [listMaxBy]
    · by_cases h0 : (dirs.filter fun d => d.hasAccents) = []
      · simp only [selectDirectoryToKeep, specSelectDirectory, h0]
        simp only [List.length_nil, Nat.lt_irrefl, if_false, Nat.zero_ne_one,
          if_true]
        exact select_stage2_eq dirs h
      · have hpos : 0 < (dirs.filter fun d => d.hasAccents).length :=
          List.length_pos.mpr h0
        have hz : ¬ (dirs.filter fun d => d.hasAccents).length = 0 := by
          omega
        simp only [selectDirectoryToKeep, specSelectDirectory, if_pos hpos,
          if_neg h1, if_neg hz]
        exact select_stage2_eq _ h0
  · intro hA
    have hsel : selectDirectoryToKeep dirs ∈ (dirs.filter fun d => d.hasAccents) := by
      simp only [selectDirectoryToKeep]
      by_cases h1 : (dirs.filter fun d => d.hasAccents).length = 1
      · rw [if_pos h1]
        exact headD_mem hA
      · have hpos : 0 < (dirs.filter fun d => d.hasAccents).length :=
          List.length_pos.mpr hA
        rw [if_neg h1, if_pos hpos]
        by_cases h2 : ((dirs.filter fun d => d.hasAccents).filter
            (fun d => d.subfolderCount = listMaxBy (fun d2 => d2.subfolderCount)
              (dirs.filter fun d3 => d3.hasAccents))).length = 1
        · rw [if_pos h2]
          have hw : (dirs.filter fun d => d.hasAccents).filter
              (fun d => d.subfolderCount = listMaxBy (fun d2 => d2.subfolderCount)
                (dirs.filter fun d3 => d3.hasAccents)) ≠ [] :=
            filter_max_ne_nil _ hA
          exact List.mem_of_mem_filter (headD_mem hw)
        · rw [if_neg h2]
          have hw : (dirs.filter fun d => d.hasAccents).filter
              (fun d => d.subfolderCount = listMaxBy (fun d2 => d2.subfolderCount)
                (dirs.filter fun d3 => d3.hasAccents)) ≠ [] :=
            filter_max_ne_nil _ hA
          have hs := headD_mem (sortByDesc_ne_nil (fun d => d.lastModified) hw)
          exact List.mem_of_mem_filter
            (((sortByDesc_perm (fun d => d.lastModified) _).mem_iff).mp hs)
    have := List.mem_filter.mp hsel
    simpa using this.2

/-- Witness for C7: `Artist/Café` (diacritic, 2 subfolders) beats
`Artist/Cafe` (no diacritic, 5 subfolders, later mtime). -/
theorem selection_total_order_witness :
    (selectDirectoryToKeep c7dirs = specSelectDirectory c7dirs ∧
     ((c7dirs.filter fun d => d.hasAccents) ≠ [] →
       (selectDirectoryToKeep c7dirs).hasAccents = true)) ∧
    selectDirectoryToKeep c7dirs = c7cafe :=
  ⟨selection_total_order c7dirs (by simp [c7dirs]), by decide⟩

/-! ## C4: case-collision handling of the reclaimer -/

/-- C4 divergence: on two sibling directories differing only in case, with
exactly one truly empty, the live reclaimer deletes NEITHER.  Both paths
lower-case to the same path, so the classification loop counts that
lowercase path twice among the scanned directories and skips both siblings
(the code's `potentialProblemPaths` check); the tree is returned unchanged
with an empty action trace, and no rename/rollback protocol runs — the
helpers `findCaseInsensitiveSiblings`, `renameDirectory` and
`isDirectoryTrulyEmpty` are declared in src/src/utils/file.ts yet never
called. -/
theorem case_collision_skip_bug :
    jsToLower "Foo" = jsToLower "foo" ∧ "Foo" ≠ "foo" ∧
    treeIsEmptyDir c4root ["foo"] = true ∧
    treeIsEmptyDir c4root ["Foo"] = false ∧
    cleanupEmptyDirs false false [] c4root =
      .ok ((⟨c4root, []⟩ : FS),
        (⟨[], [], [], [], [], [["Foo"], ["foo"]]⟩ : RBuckets)) :=
  ⟨rfl, by decide, rfl, rfl, rfl⟩

/-! ## C2: duplicate keep rule -/

/-- C2: in every duplicate group (same parent directory, same
counter-stripped trimmed base name) with more than one file, the stable
descending sort puts a maximal-size file first — the first of the group's
listing order among ties — and the pass deletes exactly the remaining
files, renames the keeper only after all of the group's deletions, and
returns normally for every rename outcome (a failed rename is only
logged). -/
theorem duplicate_keep_rule (root : Entries)
    (renameOk : List String → String → String → Bool) (d : List String)
    (m : List (String × List AudioFile)) (nm : String) (g : List AudioFile)
    (h1 : (d, m) ∈ dupGroups (collectAudio [] root)) (h2 : (nm, g) ∈ m)
    (hg : 1 < g.length) :
    (∀ f ∈ g, f.dir = d ∧ dupKey f = nm) ∧
    ∃ keep dels, sortByDesc (fun f => f.size) g = keep :: dels ∧
      List.Perm g (keep :: dels) ∧
      (∀ f ∈ g, f.size ≤ keep.size) ∧
      (g.filter fun f => f.size = listMaxBy (fun f2 => f2.size) g).head? =
        some keep ∧
      dupGroupActs false renameOk g =
        dels.map deleteActOf ++ dupGroupRenameActs false renameOk keep ∧
      ∀ s cnt, dupProcessGroup false false renameOk g s cnt =
        .ok (⟨(dupGroupActs false renameOk g).foldl applyAct s.tree,
              s.acts ++ dupGroupActs false renameOk g⟩,
             ⟨cnt.duplicateFilesDeleted + (g.length - 1),
              cnt.filesRenamed + renCount false renameOk keep⟩) := by
  constructor
  · intro f hf
    simp only [dupGroups, List.mem_map] at h1
    obtain ⟨⟨pk, pl⟩, hp, hpe⟩ := h1
    rw [Prod.mk.injEq] at hpe
    obtain ⟨rfl, rfl⟩ := hpe
    have hnm := groupByKey_key_eq _ pl (nm, g) h2 f hf
    have hfp := groupByKey_mem_src _ pl (nm, g) h2 f hf
    have hdir := groupByKey_key_eq _ _ (pk, pl) hp f hfp
    exact ⟨hdir, hnm⟩
  · cases hs : sortByDesc (fun f => f.size) g with
    | nil =>
      exfalso
      have hlen := (sortByDesc_perm (fun f => f.size) g).length_eq
      rw [hs] at hlen
      simp at hlen
      omega
    | cons keep dels =>
      have hperm := sortByDesc_perm (fun f => f.size) g
      rw [hs] at hperm
      have hhead : firstMaxBy (fun f => f.size) g = some keep := by
        rw [← sortByDesc_head?, hs]
        rfl
      have hkeep : keep.size = listMaxBy (fun f => f.size) g :=
        firstMaxBy_key _ hhead
      refine ⟨keep, dels, rfl, hperm.symm, ?_, ?_, ?_, ?_⟩
      · intro f hf
        rw [hkeep]
        exact le_listMaxBy _ hf
      · rw [filter_max_head, hhead]
      · simp only [dupGroupActs, if_pos hg, hs, dupGroupDeleteActs,
          Bool.false_eq_true, if_false]
      · intro s cnt
        rw [dupProcessGroup_eq]
        have hdc : groupDelCount g = g.length - 1 := by
          simp [groupDelCount, hg]
        have hrc : groupRenCount false renameOk g = renCount false renameOk keep := by
          simp only [groupRenCount, if_pos hg, hs]
        rw [hdc, hrc]

/-- Witness for C2: `Song (2).mp3` (8 bytes) and `Song.mp3` (5 bytes) in
one directory — the larger counter-suffixed file is kept, the other
deleted, and the keeper's rename is the final action of the group. -/
theorem duplicate_keep_rule_witness :
    (∀ f ∈ [c2a, c2b], f.dir = ["M"] ∧ dupKey f = "Song") ∧
    ∃ keep dels, sortByDesc (fun f => f.size) [c2a, c2b] = keep :: dels ∧
      List.Perm [c2a, c2b] (keep :: dels) ∧
      (∀ f ∈ [c2a, c2b], f.size ≤ keep.size) ∧
      ([c2a, c2b].filter fun f => f.size =
        listMaxBy (fun f2 => f2.size) [c2a, c2b]).head? = some keep ∧
      dupGroupActs false (fun _ _ _ => true) [c2a, c2b] =
        dels.map deleteActOf ++
          dupGroupRenameActs false (fun _ _ _ => true) keep ∧
      ∀ s cnt, dupProcessGroup false false (fun _ _ _ => true) [c2a, c2b] s cnt =
        .ok (⟨(dupGroupActs false (fun _ _ _ => true) [c2a, c2b]).foldl
                applyAct s.tree,
              s.acts ++ dupGroupActs false (fun _ _ _ => true) [c2a, c2b]⟩,
             ⟨cnt.duplicateFilesDeleted + ([c2a, c2b].length - 1),
              cnt.filesRenamed + renCount false (fun _ _ _ => true) keep⟩) :=
  duplicate_keep_rule c2root (fun _ _ _ => true) ["M"] [("Song", [c2a, c2b])]
    "Song" [c2a, c2b] (by decide) (by decide) (by decide)

/-! ## C5: no-audio directories are reclaimed -/

/-- One classification step can only append to the buckets: `noAudio`
membership persists, and a directory distinct from the processed one never
enters `caseIss` or `errs`. -/
theorem classifyStep_preserves (O : ReclaimOracles) (skip allLower : List (List String))
    (st : RBuckets) (x d : List String) :
    (d ∈ st.noAudio → d ∈ (classifyStep O skip allLower st x).noAudio) ∧
    (x ≠ d → d ∉ st.caseIss → d ∉ (classifyStep O skip allLower st x).caseIss) ∧
    (x ≠ d → d ∉ st.errs → d ∉ (classifyStep O skip allLower st x).errs) := by
  refine ⟨?_, ?_, ?_⟩
  · intro hmem
    simp only [classifyStep]
    split_ifs <;> simp [List.mem_append, hmem]
  · intro hxd hni hmem2
    simp only [classifyStep] at hmem2
    split_ifs at hmem2 <;>
      first
        | exact hni hmem2
        | (simp [List.mem_append] at hmem2
           rcases hmem2 with hmem2 | hmem2
           · exact hni hmem2
           · exact hxd hmem2.symm)
  · intro hxd hni hmem2
    simp only [classifyStep] at hmem2
    split_ifs at hmem2 <;>
      first
        | exact hni hmem2
        | (simp [List.mem_append] at hmem2
           rcases hmem2 with hmem2 | hmem2
           · exact hni hmem2
           · exact hxd hmem2.symm)
  
/-- One classification step records at most the processed directory's
lowercase path. -/
theorem classifyStep_pl (O : ReclaimOracles) (skip allLower : List (List String))
    (st : RBuckets) (x : List String) (lp2 : List String)
    (h : lp2 ≠ lowerPath x) (h2 : lp2 ∉ st.processedLower) :
    lp2 ∉ (classifyStep O skip allLower st x).processedLower := by
  simp only [classifyStep]
  split_ifs <;> simp [List.mem_append, h2, h]

/-- Folding classification over directories not containing `d` preserves
`d`'s bucket memberships and non-memberships. -/
theorem classify_fold_preserves (O : ReclaimOracles) (skip allLower : List (List String)) :
    ∀ (l : List (List String)) (st : RBuckets) (d : List String), d ∉ l →
      (d ∈ st.noAudio → d ∈ (l.foldl (classifyStep O skip allLower) st).noAudio) ∧
      (d ∉ st.caseIss → d ∉ (l.foldl (classifyStep O skip allLower) st).caseIss) ∧
      (d ∉ st.errs → d ∉ (l.foldl (classifyStep O skip allLower) st).errs)
  | [], st, d, _ => by simp
  | x :: xs, st, d, h => by
    have hxd : x ≠ d := fun he => h (he ▸ List.mem_cons_self x xs)
    have hds : d ∉ xs := fun hm => h (List.mem_cons_of_mem _ hm)
    have hstep := classifyStep_preserves O skip allLower st x d
    have hrec := classify_fold_preserves O skip allLower xs
      (classifyStep O skip allLower st x) d hds
    simp only [List.foldl_cons]
    exact ⟨fun hm => hrec.1 (hstep.1 hm),
           fun hm => hrec.2.1 (hstep.2.1 hxd hm),
           fun hm => hrec.2.2 (hstep.2.2 hxd hm)⟩

/-- The classification fold on a list containing `d` exactly once (by
lowercase path), where `d` matches no skip path and the oracles report
non-empty, error-free, audio-free, case-clean: `d` lands in `noAudio` and
in neither `caseIss` nor `errs`. -/
theorem classify_fold_mem (O : ReclaimOracles) (skip allLower : List (List String)) :
    ∀ (l : List (List String)) (st : RBuckets) (d : List String),
      d ∈ l → (l.map lowerPath).countP (fun p => p = lowerPath d) = 1 →
      ¬ 1 < allLower.count (lowerPath d) →
      (skip.any fun sp => sp.isPrefixOf (lowerPath d)) = false →
      O.isEmpty d = false → O.readError d = false → O.hasAudio d = false →
      O.caseIssues d = false →
      lowerPath d ∉ st.processedLower → d ∉ st.caseIss → d ∉ st.errs →
      d ∈ (l.foldl (classifyStep O skip allLower) st).noAudio ∧
      d ∉ (l.foldl (classifyStep O skip allLower) st).caseIss ∧
      d ∉ (l.foldl (classifyStep O skip allLower) st).errs
  | [], st, d, hmem, _, _, _, _, _, _, _, _, _, _ => absurd hmem (by simp)
  | x :: xs, st, d, hmem, hcount, hall, hskip, hie, hre, hha, hci, hpl, hcs, hes => by
    simp only [List.foldl_cons]
    rcases List.mem_cons.mp hmem with heq | hmx
    · subst heq
      have hd_not_xs : d ∉ xs := by
        intro hm
        have h1c : 0 < (xs.map lowerPath).countP (fun p => p = lowerPath d) :=
          List.countP_pos_iff.mpr ⟨lowerPath d, List.mem_map_of_mem lowerPath hm, by simp⟩
        have h2c : ((d :: xs).map lowerPath).countP (fun p => p = lowerPath d) =
            (xs.map lowerPath).countP (fun p => p = lowerPath d) + 1 := by
          simp [List.countP_cons]
        omega
      have hres : d ∈ (classifyStep O skip allLower st d).noAudio ∧
          d ∉ (classifyStep O skip allLower st d).caseIss ∧
          d ∉ (classifyStep O skip allLower st d).errs := by
        simp only [classifyStep]
        simp [hpl, hall, hskip, hie, hre, hha, hci, hcs, hes, List.mem_append]
      have hrec := classify_fold_preserves O skip allLower xs
        (classifyStep O skip allLower st d) d hd_not_xs
      exact ⟨hrec.1 hres.1, hrec.2.1 hres.2.1, hrec.2.2 hres.2.2⟩
    · have hlpx : lowerPath x ≠ lowerPath d := by
        intro he
        have h1c : 0 < (xs.map lowerPath).countP (fun p => p = lowerPath d) :=
          List.countP_pos_iff.mpr ⟨lowerPath d, List.mem_map_of_mem lowerPath hmx, by simp⟩
        have h2c : ((x :: xs).map lowerPath).countP (fun p => p = lowerPath d) =
            (xs.map lowerPath).countP (fun p => p = lowerPath d) + 1 := by
          simp [List.countP_cons, he]
        omega
      have hcount2 : (xs.map lowerPath).countP (fun p => p = lowerPath d) = 1 := by
        have h2c : ((x :: xs).map lowerPath).countP (fun p => p = lowerPath d) =
            (xs.map lowerPath).countP (fun p => p = lowerPath d) := by
          simp [List.countP_cons, hlpx]
        rw [h2c] at hcount
        exact hcount
      have hxd : x ≠ d := fun he => hlpx (he ▸ rfl)
      have hpl2 := classifyStep_pl O skip allLower st x (lowerPath d)
        (fun he => hlpx he.symm) hpl
      have hcs2 := (classifyStep_preserves O skip allLower st x d).2.1 hxd hcs
      have hes2 := (classifyStep_preserves O skip allLower st x d).2.2 hxd hes
      exact classify_fold_mem O skip allLower xs
        (classifyStep O skip allLower st x) d hmx hcount2 hall hskip hie hre
        hha hci hpl2 hcs2 hes2

/-- C5: in a live reclaimer pass, a scanned directory that is not empty,
holds no recognized audio anywhere beneath it, has no case issues or read
errors, matches no skip path, and is case-unique among the scanned paths,
is classified `noAudio` and recursively deleted (the emitted `deleteDir`
applies `removePath`, removing the directory with all remaining
contents). -/
theorem no_audio_reclaimed (root : Entries) (skip : List (List String))
    (d : List String)
    (hmem : d ∈ collectDirPaths [] root)
    (huniq : ((collectDirPaths [] root).map lowerPath).countP
      (fun p => p = lowerPath d) = 1)
    (hskip : (skip.any fun sp => sp.isPrefixOf (lowerPath d)) = false)
    (hne : treeIsEmptyDir root d = false)
    (hna : treeHasAudio root d = false)
    (hci : treeCaseIssues root d = false) :
    ∃ s b, cleanupEmptyDirs false false skip root = .ok (s, b) ∧
      d ∈ b.noAudio ∧ d ∉ b.caseIss ∧ d ∉ b.errs ∧
      Action.deleteDir d ∈ s.acts ∧
      ∀ es, applyAct es (Action.deleteDir d) = removePath es d := by
  have hmem2 : d ∈ sortByDesc pathStrLen (collectDirPaths [] root) :=
    ((sortByDesc_perm pathStrLen _).mem_iff).mpr hmem
  have hcnt2 : ((sortByDesc pathStrLen (collectDirPaths [] root)).map
      lowerPath).countP (fun p => p = lowerPath d) = 1 := by
    rw [List.Perm.countP_eq _ (List.Perm.map lowerPath
      (sortByDesc_perm pathStrLen (collectDirPaths [] root)))]
    exact huniq
  have hall : ¬ 1 < ((collectDirPaths [] root).map lowerPath).count (lowerPath d) := by
    have hpq : (fun x : List String => x == lowerPath d) =
        (fun p => decide (p = lowerPath d)) := by
      funext x
      by_cases h : x = lowerPath d <;> simp [h]
    have hcc : ((collectDirPaths [] root).map lowerPath).count (lowerPath d) =
        ((collectDirPaths [] root).map lowerPath).countP
          (fun p => p = lowerPath d) := by
      show List.countP (fun x => x == lowerPath d) _ = _
      rw [hpq]
    omega
  have hb := classify_fold_mem (treeOracles root) skip
    ((collectDirPaths [] root).map lowerPath)
    (sortByDesc pathStrLen (collectDirPaths [] root)) RBuckets.init d hmem2 hcnt2
    hall hskip hne rfl hna hci (by simp [RBuckets.init]) (by simp [RBuckets.init])
    (by simp [RBuckets.init])
  refine ⟨_, _, cleanupEmptyDirs_eq false false skip root, hb.1, hb.2.1, hb.2.2, ?_,
    fun es => rfl⟩
  have hno : Action.deleteDir d ∈ noAudioActs false
      (classifyAll (treeOracles root) skip (collectDirPaths [] root)).caseIss
      (classifyAll (treeOracles root) skip (collectDirPaths [] root)).errs
      (classifyAll (treeOracles root) skip (collectDirPaths [] root)).noAudio := by
    simp only [noAudioActs, Bool.false_eq_true, if_false]
    refine List.mem_map_of_mem _ (List.mem_filter.mpr ⟨hb.1, ?_⟩)
    simp only [decide_eq_true_eq]
    push_neg
    exact ⟨hb.2.1, hb.2.2⟩
  exact List.mem_append.mpr (Or.inr hno)

/-- Witness for C5: `Junk` holds only `notes.txt` — non-empty, audio-free —
and the live reclaimer deletes it recursively. -/
theorem no_audio_reclaimed_witness :
    ∃ s b, cleanupEmptyDirs false false [] c5root = .ok (s, b) ∧
      ["Junk"] ∈ b.noAudio ∧ ["Junk"] ∉ b.caseIss ∧ ["Junk"] ∉ b.errs ∧
      Action.deleteDir ["Junk"] ∈ s.acts ∧
      ∀ es, applyAct es (Action.deleteDir ["Junk"]) = removePath es ["Junk"] :=
  no_audio_reclaimed c5root [] ["Junk"] (by decide) (by decide) rfl rfl rfl rfl

/-! ## C8: dry-run neutrality -/

theorem dupGroupRenameActs_dry (renameOk : List String → String → String → Bool)
    (keep : AudioFile) : dupGroupRenameActs true renameOk keep = [] := by
  unfold dupGroupRenameActs
  cases renameBase keep.name <;> simp

theorem dupGroupActs_dry (renameOk : List String → String → String → Bool)
    (g : List AudioFile) : dupGroupActs true renameOk g = [] := by
  unfold dupGroupActs
  cases hs : sortByDesc (fun f => f.size) g <;>
    simp [hs, dupGroupDeleteActs, dupGroupRenameActs_dry]

theorem dupInnerActs_dry (renameOk : List String → String → String → Bool)
    (gs : List (String × List AudioFile)) : dupInnerActs true renameOk gs = [] := by
  induction gs with
  | nil => rfl
  | cons p ps ih =>
    simp only [dupInnerActs] at ih ⊢
    simp [dupGroupActs_dry, ih]

theorem dupOuterActs_dry (renameOk : List String → String → String → Bool)
    (ms : List (List String × List (String × List AudioFile))) :
    dupOuterActs true renameOk ms = [] := by
  induction ms with
  | nil => rfl
  | cons p ps ih =>
    simp only [dupOuterActs] at ih ⊢
    simp [dupInnerActs_dry, ih]

theorem renCount_dry (renameOk : List String → String → String → Bool)
    (keep : AudioFile) :
    renCount true renameOk keep = renCount false (fun _ _ _ => true) keep := by
  unfold renCount
  cases renameBase keep.name <;> simp

theorem groupRenCount_dry (renameOk : List String → String → String → Bool)
    (g : List AudioFile) :
    groupRenCount true renameOk g = groupRenCount false (fun _ _ _ => true) g := by
  unfold groupRenCount
  cases hs : sortByDesc (fun f => f.size) g <;> simp [hs, renCount_dry]

theorem innerRenCount_dry (renameOk : List String → String → String → Bool)
    (gs : List (String × List AudioFile)) :
    innerRenCount true renameOk gs = innerRenCount false (fun _ _ _ => true) gs := by
  induction gs with
  | nil => rfl
  | cons p ps ih =>
    simp only [innerRenCount] at ih ⊢
    simp [groupRenCount_dry, ih]

theorem outerRenCount_dry (renameOk : List String → String → String → Bool)
    (ms : List (List String × List (String × List AudioFile))) :
    outerRenCount true renameOk ms = outerRenCount false (fun _ _ _ => true) ms := by
  induction ms with
  | nil => rfl
  | cons p ps ih =>
    simp only [outerRenCount] at ih ⊢
    simp [innerRenCount_dry, ih]

theorem mp3GroupActs_dry (g : List AudioFile) : mp3GroupActs true g = [] := by
  simp [mp3GroupActs]

theorem mp3InnerActs_dry (gs : List (String × List AudioFile)) :
    mp3InnerActs true gs = [] := by
  induction gs with
  | nil => rfl
  | cons p ps ih =>
    simp only [mp3InnerActs] at ih ⊢
    simp [mp3GroupActs_dry, ih]

theorem mp3OuterActs_dry (ms : List (List String × List (String × List AudioFile))) :
    mp3OuterActs true ms = [] := by
  induction ms with
  | nil => rfl
  | cons p ps ih =>
    simp only [mp3OuterActs] at ih ⊢
    simp [mp3InnerActs_dry, ih]

theorem dirGroupActs_dry (g : List DirectoryInfo) : dirGroupActs true g = [] := by
  simp [dirGroupActs, dirMergeActs]

theorem dirInnerActs_dry (gs : List (String × List DirectoryInfo)) :
    dirInnerActs true gs = [] := by
  induction gs with
  | nil => rfl
  | cons p ps ih =>
    simp only [dirInnerActs] at ih ⊢
    simp [dirGroupActs_dry, ih]

theorem dirOuterActs_dry (ms : List (List String × List (String × List DirectoryInfo))) :
    dirOuterActs true ms = [] := by
  induction ms with
  | nil => rfl
  | cons p ps ih =>
    simp only [dirOuterActs] at ih ⊢
    simp [dirInnerActs_dry, ih]

/-- C8: a dry run of each component mutates nothing — the tree it returns
is its input and its action trace is empty — while its reported counters
equal those of a live run on the same input tree (live renames succeeding,
as they do on the model filesystem). -/
theorem dry_run_neutrality (root : Entries) (skip : List (List String))
    (renameOk : List String → String → String → Bool) :
    (cleanupDuplicates false true renameOk root).map (fun r => (r.1.tree, r.1.acts)) =
      .ok (root, []) ∧
    (cleanupDuplicates false true renameOk root).map (fun r => r.2) =
      (cleanupDuplicates false false (fun _ _ _ => true) root).map (fun r => r.2) ∧
    (cleanupMp3Flac false true root).map (fun r => (r.1.tree, r.1.acts)) =
      .ok (root, []) ∧
    (cleanupMp3Flac false true root).map (fun r => r.2) =
      (cleanupMp3Flac false false root).map (fun r => r.2) ∧
    (cleanupDirectories false true root).map (fun r => (r.1.tree, r.1.acts)) =
      .ok (root, []) ∧
    (cleanupDirectories false true root).map (fun r => r.2) =
      (cleanupDirectories false false root).map (fun r => r.2) ∧
    (cleanupEmptyDirs false true skip root).map (fun r => (r.1.tree, r.1.acts)) =
      .ok (root, []) ∧
    (cleanupEmptyDirs false true skip root).map (fun r => r.2) =
      (cleanupEmptyDirs false false skip root).map (fun r => r.2) := by
  refine ⟨?_, ?_, ?_, ?_, ?_, ?_, ?_, ?_⟩
  · rw [cleanupDuplicates_eq]
    simp [Except.map, dupOuterActs_dry]
  · rw [cleanupDuplicates_eq, cleanupDuplicates_eq]
    simp [Except.map, outerRenCount_dry]
  · rw [cleanupMp3Flac_eq]
    simp [Except.map, mp3OuterActs_dry]
  · rw [cleanupMp3Flac_eq, cleanupMp3Flac_eq]
    simp [Except.map]
  · rw [cleanupDirectories_eq]
    simp [Except.map, dirOuterActs_dry]
  · rw [cleanupDirectories_eq, cleanupDirectories_eq]
    simp [Except.map]
  · rw [cleanupEmptyDirs_eq]
    simp [Except.map, emptiesActs, noAudioActs]
  · rw [cleanupEmptyDirs_eq, cleanupEmptyDirs_eq]
    simp [Except.map]

end AudioCleanup

